import Mathlib

/-!
Verification of the myre pattern-composition engine (src/myre/pattern.py,
src/myre/match.py) against its natural-language specification.

Shallow embedding conventions:

* Python strings are `List Char` (`Str`); Python slicing `s[a:b]` with
  non-negative clamped indices is `pySlice`.
* A primitive match (`re.Match`) is `RMatch`: a span `[mstart, mstop)` over the
  scanned string, together with the spans of its numbered capture groups
  (group i, i ≥ 1, at index i-1; an unmatched group carries (-1, -1) exactly
  as CPython reports it).
* A child rule (anything satisfying the `PatternLike` capability contract of
  src/myre/protocol.py: the underlying regex engine is an external
  collaborator per spec section 6) is `Pat`: an object identity `id` (Python
  `==` on compiled patterns is object identity) plus its `finditer` stream,
  modelled as the finite list of results it yields for a given
  (string, pos, endpos).  Composite children are covered by results of kind
  `MRes.comp`.
* `MatchAny._findnext` builds a `heapq` priority queue of tuples
  `(hit.start(), hit, follow, pattern)`.  When two tuples with equal first
  component are compared, Python falls through to comparing `re.Match` /
  generator objects, which defines no ordering, so the comparison raises
  `TypeError`.  The heap is therefore embedded faithfully, translating the
  CPython heapq.heappush / heappop / _siftdown / _siftup code, with
  comparisons in `Except Unit` (`.error ()` is the `TypeError`).
* Generators are embedded as the list of values yielded before the generator
  either finishes or raises; a raised exception is a `Bool` flag (`true` means
  the scan raised before completing).
-/

namespace Myre

/-- Python strings, modelled as their character sequences. -/
abbrev Str := List Char

instance {ε α : Type} [DecidableEq ε] [DecidableEq α] :
    DecidableEq (Except ε α) := fun x y =>
  match x, y with
  | .ok a, .ok b =>
    if h : a = b then isTrue (by rw [h])
    else isFalse (by intro hh; cases hh; exact h rfl)
  | .error a, .error b =>
    if h : a = b then isTrue (by rw [h])
    else isFalse (by intro hh; cases hh; exact h rfl)
  | .ok _, .error _ => isFalse (by intro hh; cases hh)
  | .error _, .ok _ => isFalse (by intro hh; cases hh)

/-- Python slice `s[a:b]` for `0 ≤ a`, `0 ≤ b` (both indices clamped to the
string length, empty when `a ≥ b`). -/
def pySlice (s : Str) (a b : Nat) : Str := (s.take b).drop a

/-- Embedding of `re.Match`: the whole-match span `[mstart, mstop)` plus the
capture-group spans (group `i ≥ 1` at list index `i-1`, `(-1,-1)` for an
unmatched group, as CPython reports). -/
structure RMatch where
  mstart : Nat
  mstop : Nat
  groups : List (Int × Int) := []
  deriving DecidableEq, Repr, Inhabited

/-- Embedding of `myre.match.MatchWithOffset`: a primitive match plus the
offset pair added to its start/end (the current source always passes
`(0, 0)`, which is also the dataclass default). -/
structure MatchWithOffset where
  match_ : RMatch
  offset : Nat × Nat := (0, 0)
  deriving DecidableEq, Repr, Inhabited

namespace MatchWithOffset

/-- `MatchWithOffset.start(0)`: underlying start plus the first offset. -/
def start0 (h : MatchWithOffset) : Nat := h.match_.mstart + h.offset.1

/-- `MatchWithOffset.end(0)`: underlying end plus the second offset. -/
def end0 (h : MatchWithOffset) : Nat := h.match_.mstop + h.offset.2

/-- Number of capture groups of the underlying match. -/
def ngroups (h : MatchWithOffset) : Nat := h.match_.groups.length

/-- `MatchWithOffset.span(i)` for a positive group index `i`: delegates to the
underlying match and adds the offsets; raises `IndexError` (`.error ()`) when
the underlying match has fewer than `i` groups. -/
def spanG (h : MatchWithOffset) (i : Nat) : Except Unit (Int × Int) :=
  match h.match_.groups.get? (i - 1) with
  | some (a, b) => .ok (a + (h.offset.1 : Int), b + (h.offset.2 : Int))
  | none => .error ()

end MatchWithOffset

/-- One result yielded by a child rule's `finditer`: either a primitive
`re.Match` or a `ComposeMatch` from a composite child (carrying its hits). -/
inductive MRes where
  | prim (m : RMatch)
  | comp (hits : List MatchWithOffset)
  deriving DecidableEq, Repr, Inhabited

namespace MRes

/-- `hit.start()`: for a primitive match its start; for a `ComposeMatch` the
first hit's `start(0)` (`ComposeMatch.span` with group 0). -/
def mstart : MRes → Nat
  | .prim m => m.mstart
  | .comp hits => (hits.headD default).start0

/-- `hit.end()`: for a primitive match its end; for a `ComposeMatch` the last
hit's `end(0)`. -/
def mstop : MRes → Nat
  | .prim m => m.mstop
  | .comp hits => (hits.getLastD default).end0

/-- The hits a result contributes when flattened into a composite
(`MatchWithOffset(hit)` for a primitive match, `hit.hits` for a
`ComposeMatch`), as used by `MatchALL._findnext` and `MatchSeq._findnext`. -/
def hitsOf : MRes → List MatchWithOffset
  | .prim m => [⟨m, (0, 0)⟩]
  | .comp hits => hits

end MRes

/-- The character positions `range(*hit.span())` occupied by a result. -/
def spanIdx (m : MRes) : List Nat := List.range' m.mstart (m.mstop - m.mstart)

/-- A child rule as the composition engine sees it (the `PatternLike`
capability): an object identity (Python `==` between compiled patterns) and
its `finditer` stream for each (string, pos, endpos). -/
structure Pat where
  id : Nat
  find : Str → Nat → Nat → List MRes

instance : Inhabited Pat := ⟨⟨0, fun _ _ _ => []⟩⟩

/-- `PatternLike.search`: first element of the `finditer` stream, if any. -/
def Pat.search (p : Pat) (s : Str) (pos endpos : Nat) : Option MRes :=
  (p.find s pos endpos).head?

/-! ## The CPython heapq embedding

`MatchAny._findnext` stores tuples `(hit.start(), hit, follow, pattern)` in a
`heapq` list.  Tuple comparison compares the integer keys first; on equal keys
it moves to the second components, which are `re.Match` / `ComposeMatch`
objects followed by generators — none of which define an ordering, so the
comparison raises `TypeError`.  `Entry.cmpE` models this: a defined Boolean
answer on distinct keys, `.error ()` (the `TypeError`) on equal keys. -/

/-- One heapq element: the tuple `(hit.start(), hit, follow, pattern)` of
`MatchAny._findnext` (`follow` is the not-yet-consumed tail of the child's
`finditer` stream). -/
structure Entry where
  key : Nat
  hit : MRes
  follow : List MRes
  pat : Pat

instance : Inhabited Entry := ⟨⟨0, default, [], default⟩⟩

/-- Python comparison of two heap tuples: decided by the integer keys when
they differ, `TypeError` when they coincide (the tie falls through to
unorderable `re.Match` / generator components). -/
def Entry.cmpE (a b : Entry) : Except Unit Bool :=
  if a.key < b.key then .ok true
  else if b.key < a.key then .ok false
  else .error ()

/-- Pure counterpart of `Entry.cmpE` used by the verified reference heap
(coincides with `cmpE` whenever `cmpE` does not raise). -/
def Entry.keyLt (a b : Entry) : Bool := a.key < b.key

/-- Key of the element at index `i` (out-of-range reads never happen in the
algorithm; `default` keeps the function total). -/
def keyAt (l : List Entry) (i : Nat) : Nat := (l.getD i default).key

/-- CPython `heapq._siftdown` loop (bubble the held `newitem` towards the
root, shifting larger parents down), with the raising comparison.  `heap`
already holds `newitem` at index `pos` when called, exactly as in CPython. -/
def siftdownAuxE (heap : List Entry) (startpos : Nat) (newitem : Entry)
    (pos : Nat) : Except Unit (List Entry) :=
  if h : startpos < pos then
    match newitem.cmpE (heap.getD ((pos - 1) / 2) default) with
    | .error e => .error e
    | .ok true =>
        siftdownAuxE (heap.set pos (heap.getD ((pos - 1) / 2) default))
          startpos newitem ((pos - 1) / 2)
    | .ok false => .ok (heap.set pos newitem)
  else .ok (heap.set pos newitem)
  termination_by pos
  decreasing_by
    exact Nat.lt_of_le_of_lt (Nat.div_le_self _ 2)
      (Nat.pred_lt (Nat.pos_iff_ne_zero.mp (Nat.lt_of_le_of_lt (Nat.zero_le _) h)))

/-- Pure counterpart of `siftdownAuxE` (comparisons by `keyLt`). -/
def siftdownAux (heap : List Entry) (startpos : Nat) (newitem : Entry)
    (pos : Nat) : List Entry :=
  if h : startpos < pos then
    if newitem.keyLt (heap.getD ((pos - 1) / 2) default) then
      siftdownAux (heap.set pos (heap.getD ((pos - 1) / 2) default))
        startpos newitem ((pos - 1) / 2)
    else heap.set pos newitem
  else heap.set pos newitem
  termination_by pos
  decreasing_by
    exact Nat.lt_of_le_of_lt (Nat.div_le_self _ 2)
      (Nat.pred_lt (Nat.pos_iff_ne_zero.mp (Nat.lt_of_le_of_lt (Nat.zero_le _) h)))

/-- CPython `heapq._siftdown(heap, startpos, pos)`: reads `newitem` from
index `pos` and runs the loop. -/
def siftdownE (heap : List Entry) (startpos pos : Nat) :
    Except Unit (List Entry) :=
  siftdownAuxE heap startpos (heap.getD pos default) pos

/-- CPython child selection in `heapq._siftup`: move to the right sibling
when it exists and `not heap[childpos] < heap[rightpos]`; comparison via the
raising `cmpE`. -/
def pickChildE (heap : List Entry) (endpos childpos rightpos : Nat) :
    Except Unit Nat :=
  if rightpos < endpos then
    match (heap.getD childpos default).cmpE (heap.getD rightpos default) with
    | .error e => .error e
    | .ok b => .ok (if b then childpos else rightpos)
  else .ok childpos

/-- Pure counterpart of `pickChildE`. -/
def pickChild (heap : List Entry) (endpos childpos rightpos : Nat) : Nat :=
  if rightpos < endpos ∧
      ¬ (heap.getD childpos default).keyLt (heap.getD rightpos default)
  then rightpos else childpos

theorem pickChildE_ok {heap : List Entry} {endpos childpos rightpos c : Nat}
    (h : pickChildE heap endpos childpos rightpos = .ok c) :
    c = childpos ∨ (c = rightpos ∧ rightpos < endpos) := by
  unfold pickChildE at h
  split at h
  · rename_i hr
    cases hb : (heap.getD childpos default).cmpE (heap.getD rightpos default)
    · rw [hb] at h; cases h
    · rw [hb] at h
      rename_i b
      cases b
      · exact Or.inr ⟨by cases h; rfl, hr⟩
      · exact Or.inl (by cases h; rfl)
  · exact Or.inl (by cases h; rfl)

theorem pickChild_cases (heap : List Entry) (endpos childpos rightpos : Nat) :
    pickChild heap endpos childpos rightpos = childpos ∨
      (pickChild heap endpos childpos rightpos = rightpos ∧
        rightpos < endpos) := by
  unfold pickChild
  split
  · rename_i hc; exact Or.inr ⟨rfl, hc.1⟩
  · exact Or.inl rfl

/-- CPython `heapq._siftup` walk-down loop: repeatedly move the smaller child
up into `pos` and descend, until `pos` has no left child; returns the
rearranged list and the final `pos`. -/
def siftupAuxE (heap : List Entry) (endpos : Nat) (pos : Nat) :
    Except Unit (List Entry × Nat) :=
  if h : 2 * pos + 1 < endpos then
    match hc : pickChildE heap endpos (2 * pos + 1) (2 * pos + 2) with
    | .error e => .error e
    | .ok c2 => siftupAuxE (heap.set pos (heap.getD c2 default)) endpos c2
  else .ok (heap, pos)
  termination_by endpos - pos
  decreasing_by
    rcases pickChildE_ok hc with h1 | ⟨h1, h2⟩ <;> omega

/-- Pure counterpart of `siftupAuxE`. -/
def siftupAux (heap : List Entry) (endpos : Nat) (pos : Nat) :
    List Entry × Nat :=
  if h : 2 * pos + 1 < endpos then
    siftupAux
      (heap.set pos
        (heap.getD (pickChild heap endpos (2 * pos + 1) (2 * pos + 2)) default))
      endpos (pickChild heap endpos (2 * pos + 1) (2 * pos + 2))
  else (heap, pos)
  termination_by endpos - pos
  decreasing_by
    rcases pickChild_cases heap endpos (2 * pos + 1) (2 * pos + 2) with
      h1 | ⟨h1, h2⟩ <;> omega

/-- CPython `heapq._siftup(heap, pos)`: remember `newitem = heap[pos]`, walk
the smaller-child chain down to a leaf, place `newitem` there and bubble it
back up with `_siftdown`. -/
def siftupE (heap : List Entry) (pos : Nat) : Except Unit (List Entry) :=
  let newitem := heap.getD pos default
  match siftupAuxE heap heap.length pos with
  | .error e => .error e
  | .ok (h2, fpos) => siftdownAuxE (h2.set fpos newitem) pos newitem fpos

/-- Pure counterpart of `siftupE`. -/
def siftup (heap : List Entry) (pos : Nat) : List Entry :=
  let newitem := heap.getD pos default
  let r := siftupAux heap heap.length pos
  siftdownAux (r.1.set r.2 newitem) pos newitem r.2

/-- CPython `heapq.heappush`: append, then sift the new item towards the
root. -/
def heappushE (heap : List Entry) (item : Entry) : Except Unit (List Entry) :=
  siftdownE (heap ++ [item]) 0 heap.length

/-- Pure counterpart of `heappushE`. -/
def heappush (heap : List Entry) (item : Entry) : List Entry :=
  siftdownAux (heap ++ [item]) 0 item heap.length

/-- CPython `heapq.heappop`: pop the last element; if the heap is still
non-empty, remember the root as the return value, move the last element to the
root and restore the heap shape with `_siftup`.  Popping an empty heap raises
`IndexError` (never reached: the merge loop guards `while pq`). -/
def heappopE (heap : List Entry) : Except Unit (Entry × List Entry) :=
  match heap.getLast? with
  | none => .error ()
  | some lastelt =>
    let rest := heap.dropLast
    if rest.isEmpty then .ok (lastelt, [])
    else
      let returnitem := rest.getD 0 default
      match siftupE (rest.set 0 lastelt) 0 with
      | .error e => .error e
      | .ok h2 => .ok (returnitem, h2)

/-- Pure counterpart of `heappopE`. -/
def heappop (heap : List Entry) : Entry × List Entry :=
  match heap.getLast? with
  | none => (default, [])
  | some lastelt =>
    let rest := heap.dropLast
    if rest.isEmpty then (lastelt, [])
    else (rest.getD 0 default, siftup (rest.set 0 lastelt) 0)

/-! ## List-as-array utilities for the heap proofs -/

theorem getD_set_ne {α : Type} (l : List α) (i j : Nat) (a d : α)
    (h : i ≠ j) : (l.set i a).getD j d = l.getD j d := by
  simp [List.getD, List.getElem?_set_ne h]

theorem getD_set_self {α : Type} (l : List α) (i : Nat) (a d : α)
    (h : i < l.length) : (l.set i a).getD i d = a := by
  simp [List.getD, List.getElem?_set_self, h]

theorem getD_append_lt {α : Type} (l l2 : List α) (j : Nat) (d : α)
    (h : j < l.length) : (l ++ l2).getD j d = l.getD j d := by
  simp [List.getD, List.getElem?_append_left h]

theorem getD_append_len {α : Type} (l : List α) (a d : α) :
    (l ++ [a]).getD l.length d = a := by
  simp [List.getD, List.getElem?_append_right (Nat.le_refl _)]

theorem getD_mem {α : Type} (l : List α) (i : Nat) (d : α)
    (h : i < l.length) : l.getD i d ∈ l := by
  rw [List.getD_eq_getElem l d h]; exact l.getElem_mem h

theorem set_getD_self {α : Type} (l : List α) (i : Nat) (d : α) :
    l.set i (l.getD i d) = l := by
  induction l generalizing i with
  | nil => rfl
  | cons a t ih =>
    cases i with
    | zero => rfl
    | succ k => simpa [List.set, List.getD] using ih k

theorem set_perm {α : Type} (l : List α) (i : Nat) (x : α)
    (hi : i < l.length) : List.Perm (l.set i x) (x :: l.eraseIdx i) := by
  induction l generalizing i with
  | nil => cases hi
  | cons a t ih =>
    cases i with
    | zero => simp
    | succ k =>
      have hk : k < t.length := by simpa using hi
      have h2 : List.Perm (a :: t.set k x) (a :: x :: t.eraseIdx k) :=
        List.Perm.cons a (ih k hk)
      exact List.Perm.trans h2 (List.Perm.swap x a _)

theorem reinsert_perm {α : Type} (l : List α) (i : Nat) (d : α)
    (hi : i < l.length) : List.Perm l (l.getD i d :: l.eraseIdx i) := by
  have := set_perm l i (l.getD i d) hi
  rwa [set_getD_self l i d] at this

theorem swap_set_perm {α : Type} (l : List α) (i j : Nat) (x d : α)
    (hi : i < l.length) (hj : j < l.length) (hne : i ≠ j) :
    List.Perm ((l.set i (l.getD j d)).set j x) (l.set i x) := by
  have hlen : (l.set i (l.getD j d)).length = l.length := by simp
  have h1 : List.Perm ((l.set i (l.getD j d)).set j x)
      (x :: (l.set i (l.getD j d)).eraseIdx j) :=
    set_perm _ j x (by rw [hlen]; exact hj)
  have h2 : List.Perm (l.set i x) (x :: l.eraseIdx i) := set_perm l i x hi
  have key : List.Perm ((l.set i (l.getD j d)).eraseIdx j) (l.eraseIdx i) := by
    have e1 : List.Perm (l.set i (l.getD j d))
        ((l.set i (l.getD j d)).getD j d :: (l.set i (l.getD j d)).eraseIdx j) :=
      reinsert_perm _ j d (by rw [hlen]; exact hj)
    have e2 : (l.set i (l.getD j d)).getD j d = l.getD j d :=
      getD_set_ne l i j _ d hne
    have e3 : List.Perm (l.set i (l.getD j d)) (l.getD j d :: l.eraseIdx i) :=
      set_perm l i (l.getD j d) hi
    rw [e2] at e1
    exact List.Perm.cons_inv (List.Perm.trans (List.Perm.symm e1) e3)
  exact List.Perm.trans h1
    (List.Perm.trans (List.Perm.cons x key) (List.Perm.symm h2))

/-! ## Facts about the heap key view -/

theorem keyAt_set_ne (l : List Entry) (i j : Nat) (a : Entry) (h : i ≠ j) :
    keyAt (l.set i a) j = keyAt l j := by
  unfold keyAt; rw [getD_set_ne l i j a default h]

theorem keyAt_set_self (l : List Entry) (i : Nat) (a : Entry)
    (h : i < l.length) : keyAt (l.set i a) i = a.key := by
  unfold keyAt; rw [getD_set_self l i a default h]

theorem cmpE_ok_of_ne {a b : Entry} (h : a.key ≠ b.key) :
    a.cmpE b = .ok (a.keyLt b) := by
  unfold Entry.cmpE Entry.keyLt
  rcases Nat.lt_or_ge a.key b.key with h1 | h1
  · simp [h1]
  · have h2 : b.key < a.key := lt_of_le_of_ne h1 (Ne.symm h)
    simp [Nat.lt_asymm h2, h2, Nat.not_lt_of_lt h2]

theorem cmpE_ok_elim {a b : Entry} {v : Bool} (h : a.cmpE b = .ok v) :
    a.key ≠ b.key ∧ v = a.keyLt b := by
  unfold Entry.cmpE at h
  split at h
  · rename_i h1
    refine ⟨Nat.ne_of_lt h1, ?_⟩
    cases h; simp [Entry.keyLt, h1]
  · split at h
    · rename_i h1 h2
      refine ⟨(Nat.ne_of_lt h2).symm, ?_⟩
      cases h; simp [Entry.keyLt, h1]
    · cases h

/-! ## Pure heap: length and permutation facts -/

theorem siftdownAux_length (pos : Nat) (heap : List Entry) (s : Nat)
    (n : Entry) : (siftdownAux heap s n pos).length = heap.length := by
  induction heap, s, n, pos using siftdownAux.induct with
  | case1 heap s n pos h phit ih =>
    rw [siftdownAux, dif_pos h, if_pos phit, ih, List.length_set]
  | case2 heap s n pos h phit =>
    rw [siftdownAux, dif_pos h, if_neg phit, List.length_set]
  | case3 heap s n pos h =>
    rw [siftdownAux, dif_neg h, List.length_set]

theorem siftdownAux_perm (pos : Nat) (heap : List Entry) (s : Nat) (n : Entry)
    (hp : pos < heap.length) :
    List.Perm (siftdownAux heap s n pos) (heap.set pos n) := by
  induction heap, s, n, pos using siftdownAux.induct with
  | case1 heap s n pos h phit ih =>
    rw [siftdownAux, dif_pos h, if_pos phit]
    have hpp : (pos - 1) / 2 < pos := by omega
    have h2 := ih (by rw [List.length_set]; exact Nat.lt_trans hpp hp)
    refine List.Perm.trans h2 ?_
    exact swap_set_perm heap pos ((pos - 1) / 2) n default hp
      (Nat.lt_trans hpp hp) (Nat.ne_of_gt hpp)
  | case2 heap s n pos h phit =>
    rw [siftdownAux, dif_pos h, if_neg phit]
  | case3 heap s n pos h => rw [siftdownAux, dif_neg h]

theorem siftupAux_length (heap : List Entry) (e p : Nat) :
    (siftupAux heap e p).1.length = heap.length := by
  induction heap, e, p using siftupAux.induct with
  | case1 heap e p h ih => rw [siftupAux, dif_pos h, ih, List.length_set]
  | case2 heap e p h => rw [siftupAux, dif_neg h]

theorem siftupAux_pos_lt (heap : List Entry) (e p : Nat) (hp : p < e) :
    (siftupAux heap e p).2 < e := by
  induction heap, e, p using siftupAux.induct with
  | case1 heap e p h ih =>
    rw [siftupAux, dif_pos h]
    rcases pickChild_cases heap e (2 * p + 1) (2 * p + 2) with h1 | ⟨h1, h2⟩ <;>
      exact ih (by omega)
  | case2 heap e p h => rw [siftupAux, dif_neg h]; exact hp

theorem siftupAux_final_leaf (heap : List Entry) (e p : Nat) :
    ¬ 2 * (siftupAux heap e p).2 + 1 < e := by
  induction heap, e, p using siftupAux.induct with
  | case1 heap e p h ih => rw [siftupAux, dif_pos h]; exact ih
  | case2 heap e p h => rw [siftupAux, dif_neg h]; exact h

theorem siftupAux_perm (heap : List Entry) (e p : Nat) (x : Entry)
    (hp : p < heap.length) (he : e ≤ heap.length) :
    List.Perm ((siftupAux heap e p).1.set (siftupAux heap e p).2 x)
      (heap.set p x) := by
  induction heap, e, p using siftupAux.induct with
  | case1 heap e p h ih =>
    rw [siftupAux, dif_pos h]
    have hc := pickChild_cases heap e (2 * p + 1) (2 * p + 2)
    have hclt : pickChild heap e (2 * p + 1) (2 * p + 2) < heap.length := by
      rcases hc with h1 | ⟨h1, h2⟩ <;> omega
    have hne : p ≠ pickChild heap e (2 * p + 1) (2 * p + 2) := by
      rcases hc with h1 | ⟨h1, h2⟩ <;> omega
    have h2 := ih (by rw [List.length_set]; exact hclt)
      (by rw [List.length_set]; exact he)
    refine List.Perm.trans h2 ?_
    exact swap_set_perm heap p _ x default hp hclt hne
  | case2 heap e p h => rw [siftupAux, dif_neg h]

theorem siftup_perm (heap : List Entry) (p : Nat) (hp : p < heap.length) :
    List.Perm (siftup heap p) heap := by
  unfold siftup
  have h1 := siftdownAux_perm (siftupAux heap heap.length p).2
    ((siftupAux heap heap.length p).1.set (siftupAux heap heap.length p).2
      (heap.getD p default))
    p (heap.getD p default)
    (by rw [List.length_set, siftupAux_length]
        exact siftupAux_pos_lt heap heap.length p hp)
  rw [List.set_set] at h1
  refine List.Perm.trans h1 ?_
  have h2 := siftupAux_perm heap heap.length p (heap.getD p default) hp
    (Nat.le_refl _)
  rw [set_getD_self heap p default] at h2
  exact h2

theorem heappush_perm (heap : List Entry) (item : Entry) :
    List.Perm (heappush heap item) (item :: heap) := by
  unfold heappush
  have h1 := siftdownAux_perm heap.length (heap ++ [item]) 0 item
    (by simp)
  have h2 : (heap ++ [item]).set heap.length item = heap ++ [item] := by
    have := set_getD_self (heap ++ [item]) heap.length (default : Entry)
    rwa [getD_append_len] at this
  rw [h2] at h1
  exact List.Perm.trans h1 (List.perm_append_singleton item heap)

theorem heappop_perm (heap : List Entry) (hne : heap ≠ []) :
    List.Perm heap ((heappop heap).1 :: (heappop heap).2) := by
  cases hl : heap.getLast? with
  | none =>
    exact absurd (by simpa using congrArg Option.isNone hl)
      (by simpa using List.getLast?_isSome.mpr hne)
  | some lastelt =>
    have hgl : lastelt = heap.getLast hne := by
      have h := List.getLast?_eq_getLast heap hne
      rw [hl] at h
      exact Option.some.inj h
    have hd : heap.dropLast ++ [lastelt] = heap := by
      rw [hgl]; exact List.dropLast_append_getLast hne
    unfold heappop
    rw [hl]
    dsimp only
    by_cases hr : heap.dropLast.isEmpty
    · rw [if_pos hr]
      have h1 : heap.dropLast = [] := List.isEmpty_iff.mp hr
      rw [h1] at hd
      rw [← hd]
      exact List.Perm.refl _
    · rw [if_neg hr]
      have hrne : heap.dropLast ≠ [] := fun h => by simp [h] at hr
      have hrlen : 0 < heap.dropLast.length := List.length_pos.mpr hrne
      have hperm := siftup_perm (heap.dropLast.set 0 lastelt) 0
        (by rw [List.length_set]; exact hrlen)
      refine List.Perm.trans ?_ (List.Perm.cons _ (List.Perm.symm hperm))
      have h0 : List.Perm heap.dropLast
          (heap.dropLast.getD 0 default :: heap.dropLast.eraseIdx 0) :=
        reinsert_perm _ 0 default hrlen
      have h1 : List.Perm (heap.dropLast.set 0 lastelt)
          (lastelt :: heap.dropLast.eraseIdx 0) := set_perm _ 0 lastelt hrlen
      conv_lhs => rw [← hd]
      refine List.Perm.trans (List.perm_append_singleton lastelt heap.dropLast) ?_
      refine List.Perm.trans (List.Perm.cons lastelt h0) ?_
      refine List.Perm.trans (List.Perm.swap _ lastelt _) ?_
      exact List.Perm.cons _ (List.Perm.symm h1)

/-! ## Relating the raising heap operations to the pure reference heap

First: whenever an `Except` heap operation returns `.ok`, its value is the
pure computation.  Second: when the keys in play are pairwise distinct (which
the merge algorithm guarantees), the operation does return `.ok`. -/

theorem siftdownAuxE_ok_elim {heap : List Entry} {s : Nat} {n : Entry}
    {pos : Nat} {r : List Entry}
    (h : siftdownAuxE heap s n pos = .ok r) : r = siftdownAux heap s n pos := by
  induction heap, s, n, pos using siftdownAuxE.induct with
  | case1 heap s n pos hlt e herr =>
    rw [siftdownAuxE, dif_pos hlt, herr] at h; cases h
  | case2 heap s n pos hlt hok ih =>
    rw [siftdownAuxE, dif_pos hlt, hok] at h
    rw [siftdownAux, dif_pos hlt, if_pos (cmpE_ok_elim hok).2.symm]
    exact ih h
  | case3 heap s n pos hlt hok =>
    rw [siftdownAuxE, dif_pos hlt, hok] at h
    rw [siftdownAux, dif_pos hlt,
      if_neg (by rw [← (cmpE_ok_elim hok).2]; simp)]
    cases h; rfl
  | case4 heap s n pos hlt =>
    rw [siftdownAuxE, dif_neg hlt] at h
    rw [siftdownAux, dif_neg hlt]
    cases h; rfl

theorem siftdownAuxE_ok_of {heap : List Entry} {s : Nat} {n : Entry}
    {pos : Nat} (H : ∀ j, j < pos → keyAt heap j ≠ n.key) :
    siftdownAuxE heap s n pos = .ok (siftdownAux heap s n pos) := by
  induction heap, s, n, pos using siftdownAux.induct with
  | case1 heap s n pos hlt phit ih =>
    have hpp : (pos - 1) / 2 < pos := by omega
    have hcmp : n.cmpE (heap.getD ((pos - 1) / 2) default) =
        .ok (n.keyLt (heap.getD ((pos - 1) / 2) default)) :=
      cmpE_ok_of_ne (fun he => (H _ hpp) (by unfold keyAt; rw [← he]))
    rw [siftdownAuxE, dif_pos hlt, hcmp, phit,
      siftdownAux, dif_pos hlt, if_pos phit]
    exact ih (fun j hj => by
      rw [keyAt_set_ne _ pos j _ (by omega)]
      exact H j (Nat.lt_trans hj hpp))
  | case2 heap s n pos hlt phit =>
    have hpp : (pos - 1) / 2 < pos := by omega
    have hcmp : n.cmpE (heap.getD ((pos - 1) / 2) default) =
        .ok (n.keyLt (heap.getD ((pos - 1) / 2) default)) :=
      cmpE_ok_of_ne (fun he => (H _ hpp) (by unfold keyAt; rw [← he]))
    rw [siftdownAuxE, dif_pos hlt, hcmp, (by simpa using phit :
        n.keyLt (heap.getD ((pos - 1) / 2) default) = false),
      siftdownAux, dif_pos hlt, if_neg (by simpa using phit)]
  | case3 heap s n pos hlt =>
    rw [siftdownAuxE, dif_neg hlt, siftdownAux, dif_neg hlt]

theorem pickChild_of_keyLt {heap : List Entry} {e cp rp : Nat}
    (hk : (heap.getD cp default).keyLt (heap.getD rp default) = true) :
    pickChild heap e cp rp = cp := by
  unfold pickChild
  exact if_neg (fun hc => hc.2 hk)

theorem pickChild_of_not_keyLt {heap : List Entry} {e cp rp : Nat}
    (hr : rp < e)
    (hk : (heap.getD cp default).keyLt (heap.getD rp default) = false) :
    pickChild heap e cp rp = rp := by
  unfold pickChild
  exact if_pos ⟨hr, fun hc => by rw [hk] at hc; cases hc⟩

theorem pickChild_of_no_right {heap : List Entry} {e cp rp : Nat}
    (hr : ¬ rp < e) : pickChild heap e cp rp = cp := by
  unfold pickChild
  exact if_neg (fun hc => hr hc.1)

theorem pickChildE_ok_elim {heap : List Entry} {e cp rp c : Nat}
    (h : pickChildE heap e cp rp = .ok c) : c = pickChild heap e cp rp := by
  unfold pickChildE at h
  split at h
  · rename_i hr
    cases hb : (heap.getD cp default).cmpE (heap.getD rp default) with
    | error e2 => rw [hb] at h; cases h
    | ok b =>
      rw [hb] at h
      cases h
      rcases cmpE_ok_elim hb with ⟨-, rfl⟩
      cases hk : (heap.getD cp default).keyLt (heap.getD rp default) with
      | true => rw [pickChild_of_keyLt hk]; rfl
      | false => rw [pickChild_of_not_keyLt hr hk]; rfl
  · rename_i hr
    cases h
    rw [pickChild_of_no_right hr]

theorem pickChildE_ok_of {heap : List Entry} {e cp rp : Nat}
    (H : rp < e → keyAt heap cp ≠ keyAt heap rp) :
    pickChildE heap e cp rp = .ok (pickChild heap e cp rp) := by
  unfold pickChildE
  split
  · rename_i hr
    rw [cmpE_ok_of_ne (H hr)]
    cases hk : (heap.getD cp default).keyLt (heap.getD rp default) with
    | true => rw [pickChild_of_keyLt hk]; rfl
    | false => rw [pickChild_of_not_keyLt hr hk]; rfl
  · rename_i hr
    rw [pickChild_of_no_right hr]

theorem siftupAuxE_ok_elim {heap : List Entry} {e p : Nat}
    {r : List Entry × Nat} (h : siftupAuxE heap e p = .ok r) :
    r = siftupAux heap e p := by
  induction heap, e, p using siftupAuxE.induct with
  | case1 heap e p hlt e2 herr =>
    rw [siftupAuxE, dif_pos hlt, herr] at h; cases h
  | case2 heap e p hlt c2 hok ih =>
    rw [siftupAuxE, dif_pos hlt, hok] at h
    rw [siftupAux, dif_pos hlt, ← pickChildE_ok_elim hok]
    exact ih h
  | case3 heap e p hlt =>
    rw [siftupAuxE, dif_neg hlt] at h
    rw [siftupAux, dif_neg hlt]
    cases h; rfl

theorem siftupAuxE_ok_of {heap : List Entry} {e p : Nat}
    (H : ∀ j k, p < j → j < k → k < e → keyAt heap j ≠ keyAt heap k) :
    siftupAuxE heap e p = .ok (siftupAux heap e p) := by
  induction heap, e, p using siftupAux.induct with
  | case1 heap e p hlt ih =>
    have hpick : pickChildE heap e (2 * p + 1) (2 * p + 2) =
        .ok (pickChild heap e (2 * p + 1) (2 * p + 2)) :=
      pickChildE_ok_of (fun hr => H _ _ (by omega) (by omega) hr)
    rw [siftupAuxE, dif_pos hlt, hpick, siftupAux, dif_pos hlt]
    have hc := pickChild_cases heap e (2 * p + 1) (2 * p + 2)
    refine ih (fun j k hj hk hke => ?_)
    have hjp : j ≠ p := by rcases hc with h1 | ⟨h1, -⟩ <;> omega
    have hkp : k ≠ p := by rcases hc with h1 | ⟨h1, -⟩ <;> omega
    rw [keyAt_set_ne _ p j _ (Ne.symm hjp), keyAt_set_ne _ p k _ (Ne.symm hkp)]
    have hpj : p < j := by rcases hc with h1 | ⟨h1, -⟩ <;> omega
    exact H j k hpj hk hke
  | case2 heap e p hlt =>
    rw [siftupAuxE, dif_neg hlt, siftupAux, dif_neg hlt]

theorem siftupAux_vals (heap : List Entry) (e p : Nat) (hp : p < heap.length)
    (he : e ≤ heap.length) :
    ∀ j, j ≠ (siftupAux heap e p).2 →
      ∃ l, l ≠ p ∧ (l < e ∨ l = j) ∧
        (siftupAux heap e p).1.getD j default = heap.getD l default := by
  induction heap, e, p using siftupAux.induct with
  | case1 heap e p hlt ih =>
    intro j hj
    rw [siftupAux, dif_pos hlt] at hj ⊢
    have hc := pickChild_cases heap e (2 * p + 1) (2 * p + 2)
    have hce : pickChild heap e (2 * p + 1) (2 * p + 2) < e := by
      rcases hc with h1 | ⟨h1, h2⟩ <;> omega
    have hcp : p < pickChild heap e (2 * p + 1) (2 * p + 2) := by
      rcases hc with h1 | ⟨h1, -⟩ <;> omega
    rcases ih (by rw [List.length_set]; omega) (by rw [List.length_set]; omega)
        j hj with ⟨l, hl1, hl2, hl3⟩
    by_cases hlp : l = p
    · refine ⟨pickChild heap e (2 * p + 1) (2 * p + 2), by omega, Or.inl hce, ?_⟩
      rw [hl3, hlp, getD_set_self heap p _ default hp]
    · refine ⟨l, hlp, hl2, ?_⟩
      rw [hl3, getD_set_ne heap p l _ default (fun hh => hlp hh.symm)]
  | case2 heap e p hlt =>
    intro j hj
    rw [siftupAux, dif_neg hlt] at hj ⊢
    exact ⟨j, fun hh => hj hh, Or.inr rfl, rfl⟩

/-- Pairwise-distinct keys among the first `n` positions of a heap list. -/
def PD (heap : List Entry) (n : Nat) : Prop :=
  ∀ j k, j < n → k < n → j ≠ k → keyAt heap j ≠ keyAt heap k

theorem siftupE_ok_elim {heap : List Entry} {p : Nat} {r : List Entry}
    (h : siftupE heap p = .ok r) : r = siftup heap p := by
  unfold siftupE at h
  unfold siftup
  cases ha : siftupAuxE heap heap.length p with
  | error e => rw [ha] at h; cases h
  | ok pr =>
    rw [ha] at h
    have hpr := siftupAuxE_ok_elim ha
    rw [← hpr]
    exact siftdownAuxE_ok_elim h

theorem siftupE_ok_of {heap : List Entry} {p : Nat}
    (hP : PD heap heap.length) (hp : p < heap.length) :
    siftupE heap p = .ok (siftup heap p) := by
  unfold siftupE siftup
  rw [siftupAuxE_ok_of (fun j k hj hjk hke => hP j k (by omega) (by omega) (by omega))]
  have hfl : (siftupAux heap heap.length p).2 < heap.length :=
    siftupAux_pos_lt heap heap.length p hp
  refine siftdownAuxE_ok_of (fun j hj => ?_)
  have hjf : (siftupAux heap heap.length p).2 ≠ j := by omega
  show keyAt ((siftupAux heap heap.length p).1.set
      (siftupAux heap heap.length p).2 (heap.getD p default)) j ≠ _
  rw [keyAt_set_ne _ _ j _ hjf]
  rcases siftupAux_vals heap heap.length p hp (Nat.le_refl _) j
      (fun hh => hjf hh.symm) with ⟨l, hl1, hl2, hl3⟩
  have hlen : l < heap.length := by
    rcases hl2 with h1 | h1
    · exact h1
    · omega
  have := hP l p hlen hp hl1
  unfold keyAt
  rw [hl3]
  exact this

theorem heappushE_ok_elim {heap : List Entry} {item : Entry} {r : List Entry}
    (h : heappushE heap item = .ok r) : r = heappush heap item := by
  unfold heappushE siftdownE at h
  unfold heappush
  rw [getD_append_len] at h
  exact siftdownAuxE_ok_elim h

theorem heappushE_ok_of {heap : List Entry} {item : Entry}
    (H : ∀ e ∈ heap, e.key ≠ item.key) :
    heappushE heap item = .ok (heappush heap item) := by
  unfold heappushE siftdownE heappush
  rw [getD_append_len]
  refine siftdownAuxE_ok_of (fun j hj => ?_)
  show ((heap ++ [item]).getD j default).key ≠ item.key
  rw [getD_append_lt _ _ j _ hj]
  exact H _ (getD_mem heap j default hj)

theorem getD_dropLast {α : Type} (l : List α) (j : Nat) (d : α)
    (h : j < l.length - 1) : l.dropLast.getD j d = l.getD j d := by
  have h1 : j < l.dropLast.length := by simp [List.length_dropLast]; omega
  rw [List.getD_eq_getElem _ d h1,
    List.getD_eq_getElem _ d (by omega : j < l.length), List.getElem_dropLast]

theorem getLastD_eq {α : Type} (l : List α) (a d : α)
    (hl : l.getLast? = some a) : l.getD (l.length - 1) d = a := by
  have hne : l ≠ [] := by
    intro hh; rw [hh] at hl; cases hl
  have h := List.getLast?_eq_getLast l hne
  rw [hl] at h
  have h2 := List.getLast_eq_getElem l hne
  rw [List.getD_eq_getElem _ d (by
    have := List.length_pos.mpr hne
    omega), ← h2, ← Option.some.inj h]

theorem heappopE_ok_elim {heap : List Entry} {pr : Entry × List Entry}
    (h : heappopE heap = .ok pr) : pr = heappop heap := by
  unfold heappopE at h
  unfold heappop
  cases hl : heap.getLast? with
  | none => rw [hl] at h; cases h
  | some lastelt =>
    rw [hl] at h
    dsimp only at h ⊢
    by_cases hr : heap.dropLast.isEmpty
    · rw [if_pos hr] at h ⊢; cases h; rfl
    · rw [if_neg hr] at h ⊢
      cases hs : siftupE (heap.dropLast.set 0 lastelt) 0 with
      | error e => rw [hs] at h; cases h
      | ok h2 =>
        rw [hs] at h
        cases h
        rw [siftupE_ok_elim hs]

theorem heappopE_ok_of {heap : List Entry} (hP : PD heap heap.length)
    (hne : heap ≠ []) : heappopE heap = .ok (heappop heap) := by
  unfold heappopE heappop
  cases hl : heap.getLast? with
  | none =>
    exact absurd (by simpa using congrArg Option.isNone hl)
      (by simpa using List.getLast?_isSome.mpr hne)
  | some lastelt =>
    dsimp only
    by_cases hr : heap.dropLast.isEmpty
    · rw [if_pos hr, if_pos hr]
    · rw [if_neg hr, if_neg hr]
      have hrne : heap.dropLast ≠ [] := fun h => by simp [h] at hr
      have hrlen : 0 < heap.dropLast.length := List.length_pos.mpr hrne
      have hn : 0 < heap.length := List.length_pos.mpr hne
      have hdl : heap.dropLast.length = heap.length - 1 := List.length_dropLast heap
      have hP2 : PD (heap.dropLast.set 0 lastelt)
          (heap.dropLast.set 0 lastelt).length := by
        intro j k hj hk hjk
        rw [List.length_set, hdl] at hj hk
        have hval : ∀ i, i < heap.length - 1 →
            keyAt (heap.dropLast.set 0 lastelt) i =
              keyAt heap (if i = 0 then heap.length - 1 else i) := by
          intro i hi
          by_cases hi0 : i = 0
          · subst hi0
            unfold keyAt
            have he : (if (0 : Nat) = 0 then heap.length - 1 else 0) =
                heap.length - 1 := if_pos rfl
            rw [he, getD_set_self _ 0 _ _ (by omega),
              getLastD_eq heap lastelt default hl]
          · unfold keyAt
            have he : (if i = 0 then heap.length - 1 else i) = i := if_neg hi0
            rw [he, getD_set_ne _ 0 i _ _ (fun hh => hi0 hh.symm),
              getD_dropLast heap i default (by omega)]
        rw [hval j hj, hval k hk]
        refine hP _ _ ?_ ?_ ?_
        · split <;> omega
        · split <;> omega
        · split <;> split <;> omega
      rw [siftupE_ok_of hP2 (by rw [List.length_set]; omega)]

/-! ## The reference heap is a priority queue: heap shape and minimality -/

/-- Binary-heap shape on keys: every non-root position within range is at
least its parent. -/
def IsHeap (l : List Entry) : Prop :=
  ∀ i, 0 < i → i < l.length → keyAt l ((i - 1) / 2) ≤ keyAt l i

/-- Heap shape except possibly at the edge into position `pos`. -/
def AlmostHeap (v : List Entry) (pos : Nat) : Prop :=
  ∀ i, 0 < i → i < v.length → i ≠ pos → keyAt v ((i - 1) / 2) ≤ keyAt v i

/-- Bound over the hole: the parent of `pos` is already at most both children
of `pos` (vacuous at the root). -/
def HoleBound (v : List Entry) (pos : Nat) : Prop :=
  0 < pos → ∀ c, (c = 2 * pos + 1 ∨ c = 2 * pos + 2) → c < v.length →
    keyAt v ((pos - 1) / 2) ≤ keyAt v c

theorem pickChild_le_left (heap : List Entry) (e cp rp : Nat) :
    keyAt heap (pickChild heap e cp rp) ≤ keyAt heap cp := by
  unfold pickChild
  split
  · rename_i hc
    have h3 : ¬ ((heap.getD cp default).key < (heap.getD rp default).key) := by
      simpa [Entry.keyLt] using hc.2
    unfold keyAt
    omega
  · exact Nat.le_refl _

theorem pickChild_le_right (heap : List Entry) (e cp rp : Nat)
    (hr : rp < e) : keyAt heap (pickChild heap e cp rp) ≤ keyAt heap rp := by
  unfold pickChild
  split
  · exact Nat.le_refl _
  · rename_i hc
    have h2 : (heap.getD cp default).keyLt (heap.getD rp default) := by
      by_contra hk
      exact hc ⟨hr, hk⟩
    have h3 : (heap.getD cp default).key < (heap.getD rp default).key := by
      simpa [Entry.keyLt] using h2
    unfold keyAt
    omega

theorem siftdownAux_isHeap (pos : Nat) :
    ∀ (heap : List Entry) (n : Entry), pos < heap.length →
      AlmostHeap (heap.set pos n) pos → HoleBound (heap.set pos n) pos →
      IsHeap (siftdownAux heap 0 n pos) := by
  induction pos using Nat.strong_induction_on with
  | _ pos ih =>
    intro heap n hp hAH hHB
    rw [siftdownAux]
    by_cases h0 : 0 < pos
    · rw [dif_pos h0]
      have hpp : (pos - 1) / 2 < pos := by omega
      have hppl : (pos - 1) / 2 < heap.length := by omega
      have hkv : ∀ j, j ≠ pos → keyAt (heap.set pos n) j = keyAt heap j :=
        fun j hj => keyAt_set_ne heap pos j n (fun hh => hj hh.symm)
      by_cases hlt : n.keyLt (heap.getD ((pos - 1) / 2) default)
      · rw [if_pos hlt]
        have hnlt : n.key < keyAt heap ((pos - 1) / 2) := by
          simpa [Entry.keyLt, keyAt] using hlt
        refine ih ((pos - 1) / 2) hpp _ n
          (by rw [List.length_set]; omega) ?_ ?_
        · -- AlmostHeap of the next virtual state
          intro i hi0 hil hipp
          rw [List.length_set, List.length_set] at hil
          have hkv2 : ∀ j, j ≠ pos → j ≠ (pos - 1) / 2 →
              keyAt ((heap.set pos (heap.getD ((pos - 1) / 2) default)).set
                ((pos - 1) / 2) n) j = keyAt heap j := by
            intro j hj1 hj2
            rw [keyAt_set_ne _ _ j _ (fun hh => hj2 hh.symm),
              keyAt_set_ne _ _ j _ (fun hh => hj1 hh.symm)]
          have hkpos : keyAt ((heap.set pos (heap.getD ((pos - 1) / 2)
              default)).set ((pos - 1) / 2) n) pos =
              keyAt heap ((pos - 1) / 2) := by
            rw [keyAt_set_ne _ _ pos _ (fun hh => (by omega : ¬ (pos - 1) / 2 = pos) hh),
              keyAt_set_self heap pos _ hp]
            rfl
          have hkpp : keyAt ((heap.set pos (heap.getD ((pos - 1) / 2)
              default)).set ((pos - 1) / 2) n) ((pos - 1) / 2) = n.key := by
            rw [keyAt_set_self _ _ n (by rw [List.length_set]; omega)]
          by_cases hie : i = pos
          · rw [hie, hkpp, hkpos]
            exact Nat.le_of_lt hnlt
          · by_cases hpar : (i - 1) / 2 = pos
            · rw [hpar, hkpos, hkv2 i hie (by omega)]
              have hchild : i = 2 * pos + 1 ∨ i = 2 * pos + 2 := by omega
              have := hHB h0 i hchild (by rw [List.length_set]; omega)
              rw [hkv i hie, hkv ((pos - 1) / 2) (by omega)] at this
              exact this
            · by_cases hpar2 : (i - 1) / 2 = (pos - 1) / 2
              · rw [hpar2, hkpp, hkv2 i hie (by omega)]
                have := hAH i hi0 (by rw [List.length_set]; omega) hie
                rw [hkv i hie, hpar2, hkv ((pos - 1) / 2) (by omega)] at this
                exact Nat.le_trans (Nat.le_of_lt hnlt) this
              · rw [hkv2 i hie (by omega), hkv2 ((i - 1) / 2) hpar hpar2]
                have := hAH i hi0 (by rw [List.length_set]; omega) hie
                rw [hkv i hie, hkv ((i - 1) / 2) hpar] at this
                exact this
        · -- HoleBound of the next virtual state
          intro hpp0 c hc hcl
          rw [List.length_set, List.length_set] at hcl
          have hgp : ((pos - 1) / 2 - 1) / 2 < (pos - 1) / 2 := by omega
          have hkv2 : ∀ j, j ≠ pos → j ≠ (pos - 1) / 2 →
              keyAt ((heap.set pos (heap.getD ((pos - 1) / 2) default)).set
                ((pos - 1) / 2) n) j = keyAt heap j := by
            intro j hj1 hj2
            rw [keyAt_set_ne _ _ j _ (fun hh => hj2 hh.symm),
              keyAt_set_ne _ _ j _ (fun hh => hj1 hh.symm)]
          have hgppp : ((pos - 1) / 2 - 1) / 2 ≠ pos := by omega
          rw [hkv2 _ hgppp (by omega)]
          have hAHpp := hAH ((pos - 1) / 2) hpp0
            (by rw [List.length_set]; omega) (by omega)
          rw [hkv ((pos - 1) / 2) (by omega), hkv (((pos - 1) / 2 - 1) / 2) hgppp]
            at hAHpp
          by_cases hcpos : c = pos
          · have hkpos : keyAt ((heap.set pos (heap.getD ((pos - 1) / 2)
                default)).set ((pos - 1) / 2) n) pos =
                keyAt heap ((pos - 1) / 2) := by
              rw [keyAt_set_ne _ _ pos _
                  (fun hh => (by omega : ¬ (pos - 1) / 2 = pos) hh),
                keyAt_set_self heap pos _ hp]
              rfl
            rw [hcpos, hkpos]
            exact hAHpp
          · have hcpp : c ≠ (pos - 1) / 2 := by omega
            rw [hkv2 c hcpos hcpp]
            have hAHc := hAH c (by omega) (by rw [List.length_set]; omega) hcpos
            have hcparent : (c - 1) / 2 = (pos - 1) / 2 := by omega
            rw [hkv c hcpos, hcparent, hkv ((pos - 1) / 2) (by omega)] at hAHc
            exact Nat.le_trans hAHpp hAHc
      · rw [if_neg hlt]
        intro i hi0 hil
        rw [List.length_set] at hil
        by_cases hie : i = pos
        · subst hie
          rw [keyAt_set_ne heap i ((i - 1) / 2) n (by omega),
            keyAt_set_self heap i n hp]
          have h3 : ¬ (n.key < (heap.getD ((i - 1) / 2) default).key) := by
            simpa [Entry.keyLt] using hlt
          unfold keyAt
          omega
        · exact hAH i hi0 (by rw [List.length_set]; omega) hie
    · rw [dif_neg h0]
      intro i hi0 hil
      rw [List.length_set] at hil
      exact hAH i hi0 (by rw [List.length_set]; omega) (by omega)

theorem append_set_len (heap : List Entry) (item : Entry) :
    (heap ++ [item]).set heap.length item = heap ++ [item] := by
  have h := set_getD_self (heap ++ [item]) heap.length (default : Entry)
  rwa [getD_append_len] at h

theorem heappush_isHeap {heap : List Entry} (h : IsHeap heap) (item : Entry) :
    IsHeap (heappush heap item) := by
  unfold heappush
  refine siftdownAux_isHeap heap.length (heap ++ [item]) item
    (by simp) ?_ ?_
  · intro i hi0 hil hie
    rw [append_set_len] at hil ⊢
    rw [List.length_append] at hil
    have hil2 : i < heap.length := by simp at hil; omega
    unfold keyAt
    rw [getD_append_lt _ _ i _ hil2, getD_append_lt _ _ _ _ (by omega)]
    exact h i hi0 hil2
  · intro h0 c hc hcl
    rw [append_set_len, List.length_append] at hcl
    simp at hcl
    omega

/-- After the `_siftup` walk-down, every edge whose parent is not the final
(leaf) position satisfies the heap inequality. -/
theorem siftupAux_walk (heap : List Entry) (e p : Nat)
    (hlen : e ≤ heap.length) (hp : p < e)
    (ha : ∀ i, 0 < i → i < e → (i - 1) / 2 ≠ p →
      keyAt heap ((i - 1) / 2) ≤ keyAt heap i)
    (hb : 0 < p → ∀ c, (c = 2 * p + 1 ∨ c = 2 * p + 2) → c < e →
      keyAt heap ((p - 1) / 2) ≤ keyAt heap c) :
    ∀ i, 0 < i → i < e → (i - 1) / 2 ≠ (siftupAux heap e p).2 →
      keyAt (siftupAux heap e p).1 ((i - 1) / 2) ≤
        keyAt (siftupAux heap e p).1 i := by
  induction heap, e, p using siftupAux.induct with
  | case1 heap e p hlt ih =>
    rw [siftupAux, dif_pos hlt]
    have hc := pickChild_cases heap e (2 * p + 1) (2 * p + 2)
    have hce : pickChild heap e (2 * p + 1) (2 * p + 2) < e := by
      rcases hc with h1 | ⟨h1, h2⟩ <;> omega
    have hcp : p < pickChild heap e (2 * p + 1) (2 * p + 2) := by
      rcases hc with h1 | ⟨h1, -⟩ <;> omega
    have hple : p < heap.length := by omega
    have hkv : ∀ j, j ≠ p →
        keyAt (heap.set p (heap.getD (pickChild heap e (2 * p + 1)
          (2 * p + 2)) default)) j = keyAt heap j :=
      fun j hj => keyAt_set_ne heap p j _ (fun hh => hj hh.symm)
    have hkp : keyAt (heap.set p (heap.getD (pickChild heap e (2 * p + 1)
        (2 * p + 2)) default)) p =
        keyAt heap (pickChild heap e (2 * p + 1) (2 * p + 2)) := by
      rw [keyAt_set_self heap p _ hple]; rfl
    refine ih (by rw [List.length_set]; exact hlen) hce ?_ ?_
    · -- walk invariant (a) for the shifted list
      intro i hi0 hil hipar
      by_cases hie : i = p
      · have h0 : 0 < p := by omega
        have hpi : (i - 1) / 2 ≠ p := by omega
        rw [hie, hkp, hkv ((p - 1) / 2) (by omega)]
        exact hb h0 _ (by rcases hc with h1 | ⟨h1, -⟩ <;> omega) hce
      · by_cases hpar : (i - 1) / 2 = p
        · rw [hpar, hkp, hkv i hie]
          by_cases hic : i = pickChild heap e (2 * p + 1) (2 * p + 2)
          · rw [hic]
          · have hichild : i = 2 * p + 1 ∨ i = 2 * p + 2 := by omega
            rcases hichild with h1 | h1
            · subst h1
              exact pickChild_le_left heap e _ _
            · subst h1
              exact pickChild_le_right heap e _ _ hil
        · rw [hkv i hie, hkv ((i - 1) / 2) hpar]
          exact ha i hi0 hil hpar
    · -- walk invariant (b) for the shifted list
      intro hc0 c hcc hccl
      have hcnp : c ≠ p := by omega
      have hparc2 : (pickChild heap e (2 * p + 1) (2 * p + 2) - 1) / 2 = p := by
        rcases hc with h1 | ⟨h1, -⟩ <;> omega
      rw [hparc2, hkp, hkv c hcnp]
      have := ha c (by omega) hccl (by omega)
      have hparc : (c - 1) / 2 = pickChild heap e (2 * p + 1) (2 * p + 2) := by
        omega
      rw [hparc] at this
      exact this
  | case2 heap e p hlt =>
    rw [siftupAux, dif_neg hlt]
    exact ha

theorem siftup_isHeap (heap : List Entry) (h0 : 0 < heap.length)
    (ha : ∀ i, 0 < i → i < heap.length → (i - 1) / 2 ≠ 0 →
      keyAt heap ((i - 1) / 2) ≤ keyAt heap i) :
    IsHeap (siftup heap 0) := by
  unfold siftup
  have hleaf := siftupAux_final_leaf heap heap.length 0
  have hflt : (siftupAux heap heap.length 0).2 < heap.length :=
    siftupAux_pos_lt heap heap.length 0 h0
  have hwalk := siftupAux_walk heap heap.length 0 (Nat.le_refl _) h0 ha
    (fun hc => absurd hc (by omega))
  have hlen1 : (siftupAux heap heap.length 0).1.length = heap.length :=
    siftupAux_length heap heap.length 0
  refine siftdownAux_isHeap (siftupAux heap heap.length 0).2 _ _
    (by rw [List.length_set, hlen1]; exact hflt) ?_ ?_
  · intro i hi0 hil hie
    rw [List.set_set] at hil ⊢
    rw [List.length_set, hlen1] at hil
    have hpar : (i - 1) / 2 ≠ (siftupAux heap heap.length 0).2 := by
      intro hh
      have : i = 2 * (siftupAux heap heap.length 0).2 + 1 ∨
          i = 2 * (siftupAux heap heap.length 0).2 + 2 := by omega
      omega
    rw [keyAt_set_ne _ _ i _ (fun hh => hie hh.symm),
      keyAt_set_ne _ _ _ _ (fun hh => hpar hh.symm)]
    exact hwalk i hi0 hil hpar
  · intro hp0 c hcc hccl
    rw [List.set_set, List.length_set, hlen1] at hccl
    omega

theorem isHeap_root_min {l : List Entry} (h : IsHeap l) :
    ∀ i, i < l.length → keyAt l 0 ≤ keyAt l i := by
  intro i
  induction i using Nat.strong_induction_on with
  | _ i ih =>
    intro hil
    by_cases hi0 : i = 0
    · rw [hi0]
    · have hpar : (i - 1) / 2 < i := by omega
      exact Nat.le_trans (ih _ hpar (by omega)) (h i (by omega) hil)

theorem heappop_fst (heap : List Entry) (hne : heap ≠ []) :
    (heappop heap).1 = heap.getD 0 default := by
  unfold heappop
  cases hl : heap.getLast? with
  | none =>
    exact absurd (by simpa using congrArg Option.isNone hl)
      (by simpa using List.getLast?_isSome.mpr hne)
  | some lastelt =>
    dsimp only
    by_cases hr : heap.dropLast.isEmpty
    · rw [if_pos hr]
      have h1 : heap.dropLast = [] := List.isEmpty_iff.mp hr
      have hn : 0 < heap.length := List.length_pos.mpr hne
      have hlen : heap.length = 1 := by
        have := List.length_dropLast heap
        rw [h1] at this
        simp at this
        omega
      have := getLastD_eq heap lastelt default hl
      rw [hlen] at this
      simpa using this.symm
    · rw [if_neg hr]
      have hrne : heap.dropLast ≠ [] := fun h => by simp [h] at hr
      have hrlen : 0 < heap.dropLast.length := List.length_pos.mpr hrne
      have hdl : heap.dropLast.length = heap.length - 1 := List.length_dropLast heap
      exact getD_dropLast heap 0 default (by omega)

theorem heappop_min {heap : List Entry} (h : IsHeap heap) (hne : heap ≠ []) :
    ∀ e ∈ heap, ((heappop heap).1).key ≤ e.key := by
  intro e he
  rcases List.getElem_of_mem he with ⟨i, hil, hie⟩
  have h1 : keyAt heap i = e.key := by
    unfold keyAt
    rw [List.getD_eq_getElem _ _ hil, hie]
  rw [heappop_fst heap hne]
  show keyAt heap 0 ≤ e.key
  rw [← h1]
  exact isHeap_root_min h i hil

theorem heappop_isHeap {heap : List Entry} (h : IsHeap heap) :
    IsHeap (heappop heap).2 := by
  unfold heappop
  cases hl : heap.getLast? with
  | none => intro i hi0 hil; cases hil
  | some lastelt =>
    dsimp only
    by_cases hr : heap.dropLast.isEmpty
    · rw [if_pos hr]
      intro i hi0 hil
      cases hil
    · rw [if_neg hr]
      have hrne : heap.dropLast ≠ [] := fun h => by simp [h] at hr
      have hrlen : 0 < heap.dropLast.length := List.length_pos.mpr hrne
      have hdl : heap.dropLast.length = heap.length - 1 := List.length_dropLast heap
      refine siftup_isHeap _ (by rw [List.length_set]; omega) ?_
      intro i hi0 hil hipar
      rw [List.length_set] at hil
      unfold keyAt
      rw [getD_set_ne _ 0 i _ _ (fun hh => by omega),
        getD_set_ne _ 0 ((i - 1) / 2) _ _ (fun hh => hipar hh.symm),
        getD_dropLast heap i default (by omega),
        getD_dropLast heap ((i - 1) / 2) default (by omega)]
      exact h i hi0 (by omega)

/-! ## The streaming union merger, `MatchAny._findnext`

The generator first seeds the priority queue: for every child pattern it
advances the child's `finditer` stream past all claimed candidates
(`any(i in indices for i in range(*hit.span()))`) and pushes the first
unclaimed hit (if any), marking its span in `indices`.  Then, while the queue
is non-empty, it pops the earliest entry, yields `(hit, pattern)`, and pulls
the next unclaimed hit from the same stream.  A raised `TypeError` from a
heap comparison ends the stream; the `Bool` in the result records it. -/

/-- The `while hit := next(follow, None)` advance loop: skip hits that touch
an occupied position, otherwise claim the hit's span and hand it back with
the rest of the stream. -/
def pullLoop (ind : List Nat) : List MRes → Option (MRes × List MRes × List Nat)
  | [] => none
  | hit :: rest =>
    if (spanIdx hit).any (fun i => ind.contains i) then pullLoop ind rest
    else some (hit, rest, ind ++ spanIdx hit)

/-- The seeding loop over `self.patterns` (running state: queue and occupied
set). -/
def seedLoop (pats : List Pat) (s : Str) (pos endpos : Nat)
    (pq : List Entry) (ind : List Nat) :
    Except Unit (List Entry × List Nat) :=
  match pats with
  | [] => .ok (pq, ind)
  | p :: ps =>
    match pullLoop ind (p.find s pos endpos) with
    | none => seedLoop ps s pos endpos pq ind
    | some (hit, rest, ind2) =>
      match heappushE pq ⟨hit.mstart, hit, rest, p⟩ with
      | .error _ => .error ()
      | .ok pq2 => seedLoop ps s pos endpos pq2 ind2

/-- Termination measure of the main loop: one pop strictly shrinks it. -/
def pqMeasure (pq : List Entry) : Nat :=
  (pq.map (fun e => 1 + e.follow.length)).sum

theorem pqMeasure_perm {l l2 : List Entry} (h : List.Perm l l2) :
    pqMeasure l = pqMeasure l2 :=
  List.Perm.sum_eq (List.Perm.map _ h)

theorem pullLoop_some_length {ind : List Nat} {l : List MRes} {hit : MRes}
    {rest : List MRes} {ind2 : List Nat}
    (h : pullLoop ind l = some (hit, rest, ind2)) : rest.length < l.length := by
  induction l with
  | nil => cases h
  | cons x xs ih =>
    unfold pullLoop at h
    split at h
    · exact Nat.lt_trans (ih h) (by simp)
    · cases h
      simp

/-- The `while pq:` loop of `MatchAny._findnext`. -/
def mergeLoop (pq : List Entry) (ind : List Nat) : List (MRes × Pat) × Bool :=
  if hne : pq.isEmpty then ([], false)
  else
    match hpop : heappopE pq with
    | .error _ => ([], true)
    | .ok (e, pq2) =>
      match hpull : pullLoop ind e.follow with
      | none =>
        let r := mergeLoop pq2 ind
        ((e.hit, e.pat) :: r.1, r.2)
      | some (hit, rest, ind2) =>
        match hpush : heappushE pq2 ⟨hit.mstart, hit, rest, e.pat⟩ with
        | .error _ => ([(e.hit, e.pat)], true)
        | .ok pq3 =>
          let r := mergeLoop pq3 ind2
          ((e.hit, e.pat) :: r.1, r.2)
  termination_by pqMeasure pq
  decreasing_by
  · have hnil : pq ≠ [] := fun hh => hne (by simp [hh])
    have hpp := heappopE_ok_elim hpop
    have hperm := heappop_perm pq hnil
    rw [← hpp] at hperm
    have h1 : pqMeasure pq = pqMeasure (e :: pq2) := pqMeasure_perm hperm
    have hcons : pqMeasure (e :: pq2) = 1 + e.follow.length + pqMeasure pq2 := by
      unfold pqMeasure; simp
    omega
  · have hnil : pq ≠ [] := fun hh => hne (by simp [hh])
    have hpp := heappopE_ok_elim hpop
    have hperm := heappop_perm pq hnil
    rw [← hpp] at hperm
    have h1 : pqMeasure pq = pqMeasure (e :: pq2) := pqMeasure_perm hperm
    have hcons : pqMeasure (e :: pq2) = 1 + e.follow.length + pqMeasure pq2 := by
      unfold pqMeasure; simp
    have h2 := heappushE_ok_elim hpush
    have h3 := pqMeasure_perm (h2 ▸ heappush_perm pq2 ⟨hit.mstart, hit, rest, e.pat⟩)
    have hcons2 : pqMeasure (Entry.mk hit.mstart hit rest e.pat :: pq2) =
        1 + rest.length + pqMeasure pq2 := by
      unfold pqMeasure; simp
    have h4 := pullLoop_some_length hpull
    omega

/-- `MatchAny._findnext(string, pos, endpos)`: the yielded
`(hit, pattern)` pairs plus the raised flag. -/
def findnextAny (pats : List Pat) (s : Str) (pos endpos : Nat) :
    List (MRes × Pat) × Bool :=
  match seedLoop pats s pos endpos [] [] with
  | .error _ => ([], true)
  | .ok (pq, ind) => mergeLoop pq ind

/-! ## The region masker (`Masker.mask`) -/

/-- The loop body of `Masker.mask`: for each match append the text between
`last_end` and the match start, then `placeholder * len(match.group())`;
after the loop append `string[last_end:endpos]` and `string[endpos:]`. -/
def maskPieces (s : Str) (endpos : Nat) (ph : Char) :
    List MRes → Nat → Str
  | [], lastEnd => pySlice s lastEnd endpos ++ s.drop endpos
  | m :: rest, lastEnd =>
    pySlice s lastEnd m.mstart ++
      List.replicate (pySlice s m.mstart m.mstop).length ph ++
      maskPieces s endpos ph rest m.mstop

/-- `Masker(pattern, placeholder).mask(string, pos, endpos)`: prefix
`string[:pos]`, then the loop over `pattern.finditer(string, pos, endpos)`.
`len(match.group())` is the length of the text slice at the match's span
(for a primitive match this is the matched text itself). -/
def maskString (p : Pat) (ph : Char) (s : Str) (pos endpos : Nat) : Str :=
  s.take pos ++ maskPieces s endpos ph (p.find s pos endpos) pos

/-! ## The composite match model (`ComposeMatch`, src/myre/match.py)

The `_re` back-reference to the owning rule is not modelled: no span/group
query reads it.  The named-group branch of `span` is likewise outside every
claim and omitted. -/

structure ComposeMatch where
  hits : List MatchWithOffset
  string : Str
  deriving DecidableEq, Repr

namespace ComposeMatch

/-- Whole-match span (`group == 0` branch of `ComposeMatch.span`):
`(hits[0].start(0), hits[-1].end(0))`; indexing an empty hit tuple raises. -/
def span0E (m : ComposeMatch) : Except Unit (Nat × Nat) :=
  match m.hits.head?, m.hits.getLast? with
  | some h0, some h1 => .ok (h0.start0, h1.end0)
  | _, _ => .error ()

/-- The positive-integer branch of `ComposeMatch.span`: walk the hits with a
running local probe index `start`; on an `IndexError` from
`hit.span(start + 1)` subtract the consumed block and move to the next hit;
exhausting all hits raises the final group-not-found `IndexError`. -/
def spanGo : List MatchWithOffset → Nat → Nat → Except Unit (Int × Int)
  | [], _, _ => .error ()
  | h :: rest, group, start =>
    if start < group then
      match h.spanG (start + 1) with
      | .error _ =>
        if group - start = 0 then .error ()
        else spanGo rest (group - start) 0
      | .ok sp =>
        if start + 1 = group then .ok sp
        else spanGo (h :: rest) group (start + 1)
    else spanGo rest group start
  termination_by hits group start => (hits.length, group - start)
  decreasing_by
  · simp_wf
    omega
  · simp_wf
    omega
  · simp_wf
    omega

/-- `ComposeMatch.span(g)` for a positive integer `g`. -/
def spanInt (m : ComposeMatch) (g : Nat) : Except Unit (Int × Int) :=
  spanGo m.hits g 0

/-- `ComposeMatch.group(0)`: `self._string[self.start(0):self.end(0)]`. -/
def group0E (m : ComposeMatch) : Except Unit Str :=
  (m.span0E).map (fun sp => pySlice m.string sp.1 sp.2)

end ComposeMatch

/-! ## Composite rules (`Base` and its four concrete combinators) -/

/-- Composition mode (tag of the concrete `Base` subclass). -/
inductive RuleKind
  | any
  | all
  | seq
  | split
  deriving DecidableEq, Repr

/-- The sentinel `_MATCH_NONE = re.compile(r"(?!.?)")`: matches nothing. -/
def matchNonePat : Pat := ⟨0, fun _ _ _ => []⟩

/-- A composite rule: mode tag, children, and the `Base` fields `p_mask`
(paired with the `_placeholder` character set by the tuple form of `@`;
`none` is the `_MATCH_NONE` default) and `p_deny` (`none` is the
`_MATCH_NONE` default). -/
structure Rule where
  kind : RuleKind
  patterns : List Pat
  pMask : Option (Pat × Char) := none
  pDeny : Option Pat := none

/-- The mask pattern handed to `Masker` (`p_mask`). -/
def Rule.maskPat (r : Rule) : Pat :=
  match r.pMask with
  | some (p, _) => p
  | none => matchNonePat

/-- The placeholder: `getattr(self.p_mask, "_placeholder", ".") if self.p_mask
!= _MATCH_NONE else "."`. -/
def Rule.placeholder (r : Rule) : Char :=
  match r.pMask with
  | some (_, c) => c
  | none => '.'

/-- The deny pattern (`p_deny`). -/
def Rule.denyPat (r : Rule) : Pat :=
  match r.pDeny with
  | some p => p
  | none => matchNonePat

/-- `MatchALL._findnext` first phase: for each pattern take the first match of
its own `finditer`, flattening a composite hit into its constituent hits; if
any pattern's stream is empty (`for ... else: return`), the whole combinator
yields nothing (`none`). -/
def collectFirst (pats : List Pat) (s : Str) (pos endpos : Nat) :
    Option (List MatchWithOffset) :=
  match pats with
  | [] => some []
  | p :: ps =>
    match (p.find s pos endpos).head? with
    | none => none
    | some hit => (collectFirst ps s pos endpos).map (fun acc => hit.hitsOf ++ acc)

/-- `MatchALL._findnext`: empty pattern list yields nothing; otherwise one
`ComposeMatch` of all first hits sorted (stably) by the underlying match
start. -/
def findnextAll (pats : List Pat) (s : Str) (pos endpos : Nat) : List MRes :=
  if pats.isEmpty then []
  else
    match collectFirst pats s pos endpos with
    | none => []
    | some allHits =>
      [MRes.comp (allHits.mergeSort (fun a b => a.match_.mstart ≤ b.match_.mstart))]

/-- `MatchSeq._findnext` main loop over the union-merger stream: a hit from
the currently expected child (`pattern == self.patterns[index]`, object
identity) appends its hits and advances `index`; any other hit is left as is;
on `index == len(patterns)` emit the accumulated composite and reset. -/
def seqLoop (pats : List Pat) :
    List (MRes × Pat) → List MatchWithOffset → Nat → List MRes
  | [], _, _ => []
  | (hit, p) :: rest, hits, index =>
    let st :=
      if p.id = (pats.getD index default).id then (hits ++ hit.hitsOf, index + 1)
      else (hits, index)
    if st.2 = pats.length then MRes.comp st.1 :: seqLoop pats rest [] 0
    else seqLoop pats rest st.1 st.2

/-- `MatchSeq._findnext`: guard the empty pattern list, then run `seqLoop`
over `super()._findnext` (the union merger); a merger raise surfaces after
the emissions drawn from the yielded prefix. -/
def findnextSeq (pats : List Pat) (s : Str) (pos endpos : Nat) :
    List MRes × Bool :=
  if pats.isEmpty then ([], false)
  else
    let q := findnextAny pats s pos endpos
    (seqLoop pats q.1 [] 0, q.2)

/-- `SplitMatch._findnext`: guard empty patterns / sentinel delimiter
(`len(patterns) < 2` per `__post_init__`); collect the delimiter matches,
derive segment boundaries `[pos, d0.start), [d0.end, d1.start), ...,
[dn.end, endpos)`, skip empty segments, and run the content rule's
`finditer` in each segment. -/
def findnextSplit (pats : List Pat) (s : Str) (pos endpos : Nat) :
    List (MRes × Pat) :=
  if pats.length < 2 then []
  else
    let p := pats.getD 0 default
    let dms := (pats.getD 1 default).find s pos endpos
    let starts := pos :: dms.map (fun d => d.mstop)
    let ends := dms.map (fun d => d.mstart) ++ [endpos]
    ((starts.zip ends).filter (fun se => se.1 < se.2)).flatMap
      (fun se => (p.find s se.1 se.2).map (fun m => (m, p)))

/-- Dispatch of `_findnext` on the concrete combinator (the pattern component
of the yielded pairs is dropped here; `Base.finditer` ignores it). -/
def Rule.findnext (r : Rule) (s : Str) (pos endpos : Nat) : List MRes × Bool :=
  match r.kind with
  | .any =>
    let q := findnextAny r.patterns s pos endpos
    (q.1.map Prod.fst, q.2)
  | .all => (findnextAll r.patterns s pos endpos, false)
  | .seq => findnextSeq r.patterns s pos endpos
  | .split => ((findnextSplit r.patterns s pos endpos).map Prod.fst, false)

/-- The wrapping step of `Base.finditer`: a primitive hit becomes
`ComposeMatch((MatchWithOffset(hit, (0, 0)),), self, string)`; a composite
hit is rebuilt as `ComposeMatch(hit.hits, hit.re, string)` — in both cases
carrying the original (unmasked) string. -/
def wrapHit (s : Str) (hit : MRes) : ComposeMatch :=
  match hit with
  | .prim m => ⟨[⟨m, (0, 0)⟩], s⟩
  | .comp hs => ⟨hs, s⟩

/-- `Base.finditer`: mask the region, bail out if the deny rule finds a match
in the masked region, then wrap every `_findnext` hit with the original
string. -/
def Rule.finditer (r : Rule) (s : Str) (pos endpos : Nat) :
    List ComposeMatch × Bool :=
  let masked := maskString r.maskPat r.placeholder s pos endpos
  if ((r.denyPat.find masked pos endpos).head?).isSome then ([], false)
  else
    let q := r.findnext masked pos endpos
    (q.1.map (wrapHit s), q.2)

/-- The groups collected by `findall`'s comprehension; a raise (from `group`
on an empty-hit composite, or the generator itself) is an error. -/
def collectGroups : List ComposeMatch → Except Unit (List Str)
  | [] => .ok []
  | m :: rest =>
    match m.group0E with
    | .error _ => .error ()
    | .ok g => (collectGroups rest).map (fun gs => g :: gs)

/-- `Base.findall`: `[match.group() for match in finditer(...)]`; an
exception from the underlying scan propagates (error). -/
def Rule.findall (r : Rule) (s : Str) (pos endpos : Nat) :
    Except Unit (List Str) :=
  let q := r.finditer s pos endpos
  match collectGroups q.1 with
  | .error _ => .error ()
  | .ok gs => if q.2 then .error () else .ok gs

/-- `Base.search`: `next(self.finditer(...), None)`. -/
def Rule.search (r : Rule) (s : Str) (pos endpos : Nat) : Option ComposeMatch :=
  (r.finditer s pos endpos).1.head?

/-! ## Factories and operators -/

/-- The mode selector of the top-level `compile`. -/
inductive Mode
  | ANY
  | ALL
  | SEQ
  deriving DecidableEq, Repr

/-- `MatchAny.compile(*patterns)`: accepts any number of patterns, zero
included. -/
def MatchAnyCompile (pats : List Pat) : Rule := ⟨.any, pats, none, none⟩

/-- `MatchALL.compile(*patterns)` (inherited from `MatchAny`). -/
def MatchALLCompile (pats : List Pat) : Rule := ⟨.all, pats, none, none⟩

/-- `MatchSeq.compile(*patterns)` (inherited from `MatchAny`). -/
def MatchSeqCompile (pats : List Pat) : Rule := ⟨.seq, pats, none, none⟩

/-- `SplitMatch.compile(*patterns)`: fewer than two patterns raise
`ValueError`. -/
def SplitMatchCompile (pats : List Pat) : Except Unit Rule :=
  if pats.length < 2 then .error () else .ok ⟨.split, pats, none, none⟩

/-- The top-level `myre.compile(*patterns, mode, flag)`: zero patterns raise
`ValueError("At least one pattern is required")`. -/
def topCompile (pats : List Pat) (mode : Mode) : Except Unit Rule :=
  if pats.isEmpty then .error ()
  else
    .ok (match mode with
      | .ANY => MatchAnyCompile pats
      | .ALL => MatchALLCompile pats
      | .SEQ => MatchSeqCompile pats)

/-- A composite rule used as a child pattern (its `PatternLike` face).  The
object identity is `i`; its stream yields its composite matches.  (The
raised flag of a nested scan is not representable on this face; none of the
verified claims evaluates a nested composite child.) -/
def Rule.toPat (r : Rule) (i : Nat) : Pat :=
  ⟨i, fun s pos endpos => (r.finditer s pos endpos).1.map (fun m => MRes.comp m.hits)⟩

/-! Each operator returns the pair (result of the call, state of the
receiver `self` after the call).  `__and__`, `__or__`, `__add__` and
`__truediv__` build a fresh composite around `self` without writing to it;
`__xor__` and `__matmul__` run `self = deepcopy(self)` and mutate only the
deep copy, so the receiver after the call is the untouched original in every
case; the pair makes that explicit. -/

/-- The operator `self & other`: `MatchALL.compile(self, other)`. -/
def opAnd (r : Rule) (x : Pat) (i : Nat) : Rule × Rule :=
  (MatchALLCompile [r.toPat i, x], r)

/-- The operator `self | other`: `MatchAny.compile(self, other)`. -/
def opOr (r : Rule) (x : Pat) (i : Nat) : Rule × Rule :=
  (MatchAnyCompile [r.toPat i, x], r)

/-- The operator `self + other`: `MatchSeq.compile(self, other)`. -/
def opAdd (r : Rule) (x : Pat) (i : Nat) : Rule × Rule :=
  (MatchSeqCompile [r.toPat i, x], r)

/-- The operator `self / other`: `SplitMatch.compile(self, other)`. -/
def opDiv (r : Rule) (x : Pat) (i : Nat) : Except Unit Rule × Rule :=
  (SplitMatchCompile [r.toPat i, x], r)

/-- The operator `self ^ other`: deep-copy, then
`copy.p_deny = MatchAny.compile(copy.p_deny, other)` on the copy. -/
def opXor (r : Rule) (x : Pat) : Rule × Rule :=
  ({ r with pDeny := some ((MatchAnyCompile [r.denyPat, x]).toPat 0) }, r)

/-- The operator `self @ other`: deep-copy, then
`copy.p_mask = MatchAny.compile(copy.p_mask, mask_pattern)` on the copy,
recording the placeholder character when `other` is a
`(pattern, placeholder)` tuple and keeping the default otherwise. -/
def opMatmul (r : Rule) (x : Pat) (phOpt : Option Char) : Rule × Rule :=
  ({ r with pMask := some ((MatchAnyCompile [r.maskPat, x]).toPat 0,
      match phOpt with
      | some c => c
      | none => '.') }, r)

/-! ## Models of concrete primitive regex rules

The regex engine is an external collaborator (spec section 6); the concrete
claims need two of its behaviours, modelled from the documented `re`
contract: a single-character literal pattern and the digit-run pattern
`\d+` (leftmost, non-overlapping, greedy — maximal digit runs). -/

/-- `re.compile(c).finditer(s, pos, endpos)` for a single literal character
`c`: one match `[i, i+1)` at every occurrence inside `[pos, min(endpos,
len))`, in order. -/
def charFind (c : Char) (s : Str) (pos endpos : Nat) : List MRes :=
  ((List.range (min endpos s.length)).filter
    (fun i => decide (pos ≤ i ∧ s.getD i ' ' = c))).map
    (fun i => MRes.prim ⟨i, i + 1, []⟩)

/-- A compiled single-character literal pattern with object identity `i`. -/
def charPat (i : Nat) (c : Char) : Pat := ⟨i, charFind c⟩

/-- Maximal digit runs of a character list, with `i` the absolute position of
its head. -/
def digitRuns : List Char → Nat → List MRes
  | [], _ => []
  | c :: rest, i =>
    if c.isDigit then
      MRes.prim ⟨i, i + 1 + (rest.takeWhile Char.isDigit).length, []⟩ ::
        digitRuns (rest.dropWhile Char.isDigit)
          (i + 1 + (rest.takeWhile Char.isDigit).length)
    else digitRuns rest (i + 1)
  termination_by cs _ => cs.length
  decreasing_by
  · simp_wf
    have h : (rest.dropWhile Char.isDigit).length ≤ rest.length :=
      (List.dropWhile_sublist Char.isDigit).length_le
    omega
  · simp_wf

/-- `re.compile(r"\d+").finditer(s, pos, endpos)`: maximal digit runs inside
`[pos, min(endpos, len))`. -/
def digitsPat (i : Nat) : Pat :=
  ⟨i, fun s pos endpos => digitRuns (pySlice s pos endpos) pos⟩

/-! ## Properties of the union merger -/

/-- Two results share no character position (the occupied-offset-set
invariant of the spec). -/
def noShare (a b : MRes) : Prop := ∀ j, j ∈ spanIdx a → j ∉ spanIdx b

theorem mem_spanIdx {m : MRes} {j : Nat} :
    j ∈ spanIdx m ↔ m.mstart ≤ j ∧ j < m.mstop := by
  unfold spanIdx
  rw [List.mem_range'_1]
  omega

theorem noShare_symm {a b : MRes} (h : noShare a b) : noShare b a :=
  fun j hj hja => h j hja hj

theorem noShare_pos_le {a b : MRes} (h : noShare a b)
    (ha : a.mstart < a.mstop) (hb : b.mstart < b.mstop)
    (hle : a.mstart ≤ b.mstart) : a.mstop ≤ b.mstart := by
  by_contra hc
  exact h b.mstart (mem_spanIdx.mpr (by omega)) (mem_spanIdx.mpr (by omega))

/-- The per-child stream contract used by the positive parts of the merger
claims: matches in non-decreasing, non-overlapping order (the `finditer`
capability of spec section 3), every match of positive width. -/
def PatOK (p : Pat) (s : Str) (pos endpos : Nat) : Prop :=
  List.Chain' (fun a b => a.mstop ≤ b.mstart) (p.find s pos endpos) ∧
  ∀ m ∈ p.find s pos endpos, m.mstart < m.mstop

/-- Everything carried by one live queue entry that the invariants need. -/
def EntryOK (e : Entry) : Prop :=
  e.key = e.hit.mstart ∧
  List.Chain' (fun a b => a.mstop ≤ b.mstart) (e.hit :: e.follow) ∧
  (∀ m ∈ e.hit :: e.follow, m.mstart < m.mstop)

/-- The merge-loop state invariant for the ordered, raise-free part. -/
def MergeInv (pq : List Entry) (ind : List Nat) : Prop :=
  IsHeap pq ∧ (∀ e ∈ pq, EntryOK e) ∧
  (∀ e ∈ pq, ∀ j ∈ spanIdx e.hit, j ∈ ind) ∧
  List.Pairwise (fun a b => noShare a.hit b.hit) pq

theorem chain_lb {x : MRes} {l : List MRes}
    (hc : List.Chain' (fun a b => a.mstop ≤ b.mstart) (x :: l))
    (hv : ∀ m ∈ l, m.mstart ≤ m.mstop) :
    ∀ m ∈ l, x.mstop ≤ m.mstart := by
  induction l generalizing x with
  | nil => intro m hm; cases hm
  | cons y ys ih =>
    intro m hm
    have h1 : x.mstop ≤ y.mstart := List.chain'_cons.mp hc |>.1
    rcases List.mem_cons.mp hm with rfl | hm
    · exact h1
    · have h2 := ih (List.chain'_cons.mp hc).2 (fun m hm => hv m (List.mem_cons_of_mem _ hm)) m hm
      have h3 : y.mstart ≤ y.mstop := hv y (List.mem_cons_self _ _)
      omega

theorem chain_suffix {l l2 : List MRes}
    (hc : List.Chain' (fun a b => a.mstop ≤ b.mstart) l)
    (hs : l2.IsSuffix l) :
    List.Chain' (fun a b => a.mstop ≤ b.mstart) l2 := by
  rcases hs with ⟨pre, rfl⟩
  induction pre with
  | nil => exact hc
  | cons a t ih =>
    exact ih (List.Chain'.tail hc)

theorem pullLoop_none {ind : List Nat} {l : List MRes}
    (h : pullLoop ind l = none) :
    ∀ m ∈ l, ∃ j ∈ spanIdx m, j ∈ ind := by
  induction l with
  | nil => intro m hm; cases hm
  | cons x xs ih =>
    unfold pullLoop at h
    split at h
    · rename_i hx
      intro m hm
      rcases List.mem_cons.mp hm with rfl | hm
      · rcases List.any_eq_true.mp hx with ⟨j, hj, hjc⟩
        exact ⟨j, hj, List.mem_of_elem_eq_true hjc⟩
      · exact ih h m hm
    · cases h

theorem pullLoop_some {ind : List Nat} {l : List MRes} {hit : MRes}
    {rest : List MRes} {ind2 : List Nat}
    (h : pullLoop ind l = some (hit, rest, ind2)) :
    ind2 = ind ++ spanIdx hit ∧ (∀ j ∈ spanIdx hit, j ∉ ind) ∧
    (hit :: rest).IsSuffix l := by
  induction l with
  | nil => cases h
  | cons x xs ih =>
    unfold pullLoop at h
    split at h
    · rcases ih h with ⟨h1, h2, h3⟩
      exact ⟨h1, h2, h3.trans (List.suffix_cons x xs)⟩
    · rename_i hx
      cases h
      refine ⟨rfl, ?_, List.suffix_rfl⟩
      intro j hj hjm
      exact hx (List.any_eq_true.mpr ⟨j, hj, List.elem_eq_true_of_mem hjm⟩)

theorem mergeLoop_unfold (pq : List Entry) (ind : List Nat) :
    mergeLoop pq ind =
      if pq.isEmpty then ([], false)
      else
        match heappopE pq with
        | .error _ => ([], true)
        | .ok (e, pq2) =>
          match pullLoop ind e.follow with
          | none => ((e.hit, e.pat) :: (mergeLoop pq2 ind).1, (mergeLoop pq2 ind).2)
          | some (hit, rest, ind2) =>
            match heappushE pq2 ⟨hit.mstart, hit, rest, e.pat⟩ with
            | .error _ => ([(e.hit, e.pat)], true)
            | .ok pq3 =>
              ((e.hit, e.pat) :: (mergeLoop pq3 ind2).1, (mergeLoop pq3 ind2).2) := by
  rw [mergeLoop]
  by_cases h : pq.isEmpty
  · rw [dif_pos h, if_pos h]
  · rw [dif_neg h, if_neg h]
    cases hpop : heappopE pq with
    | error a => rfl
    | ok pr =>
      rcases pr with ⟨e, pq2⟩
      dsimp only
      cases hpull : pullLoop ind e.follow with
      | none => rfl
      | some tr =>
        rcases tr with ⟨hit, rest, ind2⟩
        dsimp only
        cases hpush : heappushE pq2 ⟨hit.mstart, hit, rest, e.pat⟩ with
        | error a => rfl
        | ok pq3 => rfl

/-- Part (a) of the non-overlap analysis, with no assumption on the hits: any
two results yielded by the merge loop share no character position, because a
candidate is only admitted after checking the occupied-offset set, and its
span is claimed on admission. -/
theorem mergeLoop_disjoint :
    ∀ (pq : List Entry) (ind : List Nat),
      (∀ e ∈ pq, ∀ j ∈ spanIdx e.hit, j ∈ ind) →
      List.Pairwise (fun a b => noShare a.hit b.hit) pq →
      List.Pairwise (fun a b => noShare a.1 b.1) (mergeLoop pq ind).1 ∧
      (∀ o ∈ (mergeLoop pq ind).1, ∀ j ∈ spanIdx o.1, j ∈ ind →
        ∃ e ∈ pq, j ∈ spanIdx e.hit) := by
  intro pq ind
  induction pq, ind using mergeLoop.induct with
  | case1 pq ind hempty =>
    intro H1 H2
    rw [mergeLoop_unfold, if_pos hempty]
    exact ⟨List.Pairwise.nil, fun o ho => absurd ho (List.not_mem_nil o)⟩
  | case2 pq ind hne a hpop =>
    intro H1 H2
    rw [mergeLoop_unfold, if_neg hne, hpop]
    exact ⟨List.Pairwise.nil, fun o ho => absurd ho (List.not_mem_nil o)⟩
  | case3 pq ind hne e pq2 hpop hpull ih =>
    intro H1 H2
    rw [mergeLoop_unfold, if_neg hne, hpop]
    dsimp only
    rw [hpull]
    have hnil : pq ≠ [] := fun hh => hne (by simp [hh])
    have hperm : List.Perm pq (e :: pq2) := by
      have h := heappop_perm pq hnil
      rw [← heappopE_ok_elim hpop] at h
      exact h
    have hmem2 : ∀ f ∈ pq2, f ∈ pq :=
      fun f hf => hperm.mem_iff.mpr (List.mem_cons_of_mem _ hf)
    have hepq : e ∈ pq := hperm.mem_iff.mpr (List.mem_cons_self _ _)
    have hpw : List.Pairwise (fun a b => noShare a.hit b.hit) (e :: pq2) :=
      (hperm.pairwise_iff (fun hab => noShare_symm hab)).mp H2
    have H1' : ∀ f ∈ pq2, ∀ j ∈ spanIdx f.hit, j ∈ ind :=
      fun f hf => H1 f (hmem2 f hf)
    rcases ih H1' (List.pairwise_cons.mp hpw).2 with ⟨ihPW, ihE⟩
    constructor
    · refine List.pairwise_cons.mpr ⟨?_, ihPW⟩
      intro o ho j hj hjo
      rcases ihE o ho j hjo (H1 e hepq j hj) with ⟨f, hf, hjf⟩
      exact (List.pairwise_cons.mp hpw).1 f hf j hj hjf
    · intro o ho j hj hjind
      rcases List.mem_cons.mp ho with rfl | ho
      · exact ⟨e, hepq, hj⟩
      · rcases ihE o ho j hj hjind with ⟨f, hf, hjf⟩
        exact ⟨f, hmem2 f hf, hjf⟩
  | case4 pq ind hne e pq2 hpop hit rest ind2 hpull a hpush =>
    intro H1 H2
    rw [mergeLoop_unfold, if_neg hne, hpop]
    dsimp only
    rw [hpull]
    dsimp only
    rw [hpush]
    have hnil : pq ≠ [] := fun hh => hne (by simp [hh])
    have hperm : List.Perm pq (e :: pq2) := by
      have h := heappop_perm pq hnil
      rw [← heappopE_ok_elim hpop] at h
      exact h
    have hepq : e ∈ pq := hperm.mem_iff.mpr (List.mem_cons_self _ _)
    refine ⟨List.pairwise_cons.mpr ⟨fun b hb => absurd hb (List.not_mem_nil b),
      List.Pairwise.nil⟩, ?_⟩
    intro o ho j hj hjind
    rcases List.mem_cons.mp ho with rfl | ho
    · exact ⟨e, hepq, hj⟩
    · cases ho
  | case5 pq ind hne e pq2 hpop hit rest ind2 hpull pq3 hpush ih =>
    intro H1 H2
    rw [mergeLoop_unfold, if_neg hne, hpop]
    dsimp only
    rw [hpull]
    dsimp only
    rw [hpush]
    have hnil : pq ≠ [] := fun hh => hne (by simp [hh])
    have hperm : List.Perm pq (e :: pq2) := by
      have h := heappop_perm pq hnil
      rw [← heappopE_ok_elim hpop] at h
      exact h
    have hmem2 : ∀ f ∈ pq2, f ∈ pq :=
      fun f hf => hperm.mem_iff.mpr (List.mem_cons_of_mem _ hf)
    have hepq : e ∈ pq := hperm.mem_iff.mpr (List.mem_cons_self _ _)
    have hpw : List.Pairwise (fun a b => noShare a.hit b.hit) (e :: pq2) :=
      (hperm.pairwise_iff (fun hab => noShare_symm hab)).mp H2
    rcases pullLoop_some hpull with ⟨hind2, hdisj, hsuffix⟩
    have hperm3 : List.Perm pq3 (⟨hit.mstart, hit, rest, e.pat⟩ :: pq2) := by
      have h := heappush_perm pq2 ⟨hit.mstart, hit, rest, e.pat⟩
      rw [← heappushE_ok_elim hpush] at h
      exact h
    have hmem3 : ∀ f ∈ pq3, f = ⟨hit.mstart, hit, rest, e.pat⟩ ∨ f ∈ pq2 :=
      fun f hf => List.mem_cons.mp (hperm3.mem_iff.mp hf)
    have H1' : ∀ f ∈ pq3, ∀ j ∈ spanIdx f.hit, j ∈ ind2 := by
      intro f hf j hj
      rcases hmem3 f hf with rfl | hf2
      · rw [hind2]; exact List.mem_append_right ind hj
      · rw [hind2]; exact List.mem_append_left _ (H1 f (hmem2 f hf2) j hj)
    have H2' : List.Pairwise (fun a b => noShare a.hit b.hit) pq3 := by
      refine (hperm3.pairwise_iff (fun hab => noShare_symm hab)).mpr ?_
      refine List.pairwise_cons.mpr ⟨?_, (List.pairwise_cons.mp hpw).2⟩
      intro f hf j hj hjf
      exact hdisj j hj (H1 f (hmem2 f hf) j hjf)
    rcases ih H1' H2' with ⟨ihPW, ihE⟩
    constructor
    · refine List.pairwise_cons.mpr ⟨?_, ihPW⟩
      intro o ho j hj hjo
      have hjind : j ∈ ind := H1 e hepq j hj
      rcases ihE o ho j hjo (by rw [hind2]; exact List.mem_append_left _ hjind)
        with ⟨f, hf, hjf⟩
      rcases hmem3 f hf with rfl | hf2
      · exact hdisj j hjf hjind
      · exact (List.pairwise_cons.mp hpw).1 f hf2 j hj hjf
    · intro o ho j hj hjind
      rcases List.mem_cons.mp ho with rfl | ho
      · exact ⟨e, hepq, hj⟩
      · rcases ihE o ho j hj (by rw [hind2]; exact List.mem_append_left _ hjind)
          with ⟨f, hf, hjf⟩
        rcases hmem3 f hf with rfl | hf2
        · exact absurd hjind (hdisj j hjf)
        · exact ⟨f, hmem2 f hf2, hjf⟩

theorem inv_PD {pq : List Entry} {ind : List Nat} (hinv : MergeInv pq ind) :
    PD pq pq.length := by
  rcases hinv with ⟨hH, hOK, hSp, hPW⟩
  have hkeymem : ∀ f ∈ pq, f.key ∈ spanIdx f.hit := by
    intro f hf
    rcases hOK f hf with ⟨hk, -, hpos⟩
    exact mem_spanIdx.mpr ⟨by omega,
      by rw [hk]; exact hpos f.hit (List.mem_cons_self _ _)⟩
  have main : ∀ j k, j < k → k < pq.length → keyAt pq j ≠ keyAt pq k := by
    intro j k hjk hk he
    have hj : j < pq.length := by omega
    have hns : noShare (pq.get ⟨j, hj⟩).hit (pq.get ⟨k, hk⟩).hit := by
      have := List.pairwise_iff_getElem.mp hPW j k hj hk hjk
      simpa using this
    have h1 : keyAt pq j = (pq.get ⟨j, hj⟩).key := by
      unfold keyAt
      rw [List.getD_eq_getElem _ _ hj]
      rfl
    have h2 : keyAt pq k = (pq.get ⟨k, hk⟩).key := by
      unfold keyAt
      rw [List.getD_eq_getElem _ _ hk]
      rfl
    have hm1 := hkeymem _ (pq.get_mem j hj)
    have hm2 := hkeymem _ (pq.get_mem k hk)
    rw [h1, h2] at he
    rw [he] at hm1
    exact hns _ hm1 hm2
  intro j k hj hk hjk
  rcases Nat.lt_or_ge j k with h | h
  · exact main j k h hk
  · exact (main k j (by omega) hj).symm

/-- The ordered, raise-free behaviour of the merge loop under the invariant:
no `TypeError` is raised, and consecutive yields `m1, m2` satisfy
`m1.end(0) ≤ m2.start(0)`. -/
theorem mergeLoop_chain :
    ∀ (pq : List Entry) (ind : List Nat), MergeInv pq ind →
      (mergeLoop pq ind).2 = false ∧
      List.Chain' (fun a b => a.1.mstop ≤ b.1.mstart) (mergeLoop pq ind).1 ∧
      (∀ h, (mergeLoop pq ind).1.head? = some h → ∃ e ∈ pq, h.1 = e.hit) := by
  intro pq ind
  induction pq, ind using mergeLoop.induct with
  | case1 pq ind hempty =>
    intro hinv
    rw [mergeLoop_unfold, if_pos hempty]
    exact ⟨rfl, List.chain'_nil, fun h hh => by cases hh⟩
  | case2 pq ind hne a hpop =>
    intro hinv
    have hnil : pq ≠ [] := fun hh => hne (by simp [hh])
    have h2 := heappopE_ok_of (inv_PD hinv) hnil
    rw [hpop] at h2
    cases h2
  | case3 pq ind hne e pq2 hpop hpull ih =>
    intro hinv
    rw [mergeLoop_unfold, if_neg hne, hpop]
    dsimp only
    rw [hpull]
    have hnil : pq ≠ [] := fun hh => hne (by simp [hh])
    have hpp := heappopE_ok_elim hpop
    have hperm : List.Perm pq (e :: pq2) := by
      have h := heappop_perm pq hnil
      rw [← hpp] at h
      exact h
    rcases hinv with ⟨hH, hOK, hSp, hPW⟩
    have hmem2 : ∀ f ∈ pq2, f ∈ pq :=
      fun f hf => hperm.mem_iff.mpr (List.mem_cons_of_mem _ hf)
    have hepq : e ∈ pq := hperm.mem_iff.mpr (List.mem_cons_self _ _)
    have hpw : List.Pairwise (fun a b => noShare a.hit b.hit) (e :: pq2) :=
      (hperm.pairwise_iff (fun hab => noShare_symm hab)).mp hPW
    have hmin : ∀ f ∈ pq, e.key ≤ f.key := by
      have h := heappop_min hH hnil
      have he1 : (heappop pq).1 = e := by rw [← hpp]
      rw [he1] at h
      exact h
    have hH2 : IsHeap pq2 := by
      have h := heappop_isHeap hH
      have he2 : (heappop pq).2 = pq2 := by rw [← hpp]
      rwa [he2] at h
    have hinv2 : MergeInv pq2 ind :=
      ⟨hH2, fun f hf => hOK f (hmem2 f hf), fun f hf => hSp f (hmem2 f hf),
        (List.pairwise_cons.mp hpw).2⟩
    rcases ih hinv2 with ⟨ihF, ihC, ihH⟩
    refine ⟨ihF, ?_, ?_⟩
    swap
    · intro h hh
      rw [List.head?_cons] at hh
      cases hh
      exact ⟨e, hepq, rfl⟩
    refine List.chain'_cons'.mpr ⟨?_, ihC⟩
    intro h hh
    rcases ihH h hh with ⟨f, hf, hfe⟩
    rw [hfe]
    show e.hit.mstop ≤ f.hit.mstart
    have hns : noShare e.hit f.hit := (List.pairwise_cons.mp hpw).1 f hf
    rcases hOK e hepq with ⟨hek, -, hepos⟩
    rcases hOK f (hmem2 f hf) with ⟨hfk, -, hfpos⟩
    refine noShare_pos_le hns (hepos e.hit (List.mem_cons_self _ _))
      (hfpos f.hit (List.mem_cons_self _ _)) ?_
    have := hmin f (hmem2 f hf)
    omega
  | case4 pq ind hne e pq2 hpop hit rest ind2 hpull a hpush =>
    intro hinv
    have hnil : pq ≠ [] := fun hh => hne (by simp [hh])
    have hpp := heappopE_ok_elim hpop
    have hperm : List.Perm pq (e :: pq2) := by
      have h := heappop_perm pq hnil
      rw [← hpp] at h
      exact h
    rcases hinv with ⟨hH, hOK, hSp, hPW⟩
    have hmem2 : ∀ f ∈ pq2, f ∈ pq :=
      fun f hf => hperm.mem_iff.mpr (List.mem_cons_of_mem _ hf)
    have hepq : e ∈ pq := hperm.mem_iff.mpr (List.mem_cons_self _ _)
    rcases pullLoop_some hpull with ⟨hind2, hdisj, hsuffix⟩
    have hhitmem : hit ∈ e.follow := hsuffix.subset (List.mem_cons_self _ _)
    rcases hOK e hepq with ⟨hek, hechain, hepos⟩
    have h2 := @heappushE_ok_of pq2 ⟨hit.mstart, hit, rest, e.pat⟩ ?_
    · rw [hpush] at h2
      cases h2
    · intro f hf he
      rcases hOK f (hmem2 f hf) with ⟨hfk, -, hfpos⟩
      have hm1 : f.key ∈ spanIdx f.hit := mem_spanIdx.mpr ⟨by omega,
        by rw [hfk]; exact hfpos f.hit (List.mem_cons_self _ _)⟩
      have hind : f.key ∈ ind := hSp f (hmem2 f hf) f.key hm1
      have hm2 : f.key ∈ spanIdx hit := by
        rw [he]
        exact mem_spanIdx.mpr ⟨Nat.le_refl _,
          hepos hit (List.mem_cons_of_mem _ hhitmem)⟩
      exact hdisj f.key hm2 hind
  | case5 pq ind hne e pq2 hpop hit rest ind2 hpull pq3 hpush ih =>
    intro hinv
    rw [mergeLoop_unfold, if_neg hne, hpop]
    dsimp only
    rw [hpull]
    dsimp only
    rw [hpush]
    have hnil : pq ≠ [] := fun hh => hne (by simp [hh])
    have hpp := heappopE_ok_elim hpop
    have hperm : List.Perm pq (e :: pq2) := by
      have h := heappop_perm pq hnil
      rw [← hpp] at h
      exact h
    rcases hinv with ⟨hH, hOK, hSp, hPW⟩
    have hmem2 : ∀ f ∈ pq2, f ∈ pq :=
      fun f hf => hperm.mem_iff.mpr (List.mem_cons_of_mem _ hf)
    have hepq : e ∈ pq := hperm.mem_iff.mpr (List.mem_cons_self _ _)
    have hpw : List.Pairwise (fun a b => noShare a.hit b.hit) (e :: pq2) :=
      (hperm.pairwise_iff (fun hab => noShare_symm hab)).mp hPW
    have hmin : ∀ f ∈ pq, e.key ≤ f.key := by
      have h := heappop_min hH hnil
      have he1 : (heappop pq).1 = e := by rw [← hpp]
      rw [he1] at h
      exact h
    have hH2 : IsHeap pq2 := by
      have h := heappop_isHeap hH
      have he2 : (heappop pq).2 = pq2 := by rw [← hpp]
      rwa [he2] at h
    rcases pullLoop_some hpull with ⟨hind2, hdisj, hsuffix⟩
    have hhitmem : hit ∈ e.follow := hsuffix.subset (List.mem_cons_self _ _)
    rcases hOK e hepq with ⟨hek, hechain, hepos⟩
    have hperm3 : List.Perm pq3 (⟨hit.mstart, hit, rest, e.pat⟩ :: pq2) := by
      have h := heappush_perm pq2 ⟨hit.mstart, hit, rest, e.pat⟩
      rw [← heappushE_ok_elim hpush] at h
      exact h
    have hmem3 : ∀ f ∈ pq3, f = ⟨hit.mstart, hit, rest, e.pat⟩ ∨ f ∈ pq2 :=
      fun f hf => List.mem_cons.mp (hperm3.mem_iff.mp hf)
    have hnewOK : EntryOK ⟨hit.mstart, hit, rest, e.pat⟩ := by
      refine ⟨rfl, ?_, ?_⟩
      · exact chain_suffix (List.Chain'.tail hechain) hsuffix
      · intro m hm
        exact hepos m (List.mem_cons_of_mem _ (hsuffix.subset hm))
    have hH3 : IsHeap pq3 := by
      have h := heappush_isHeap hH2 ⟨hit.mstart, hit, rest, e.pat⟩
      rwa [← heappushE_ok_elim hpush] at h
    have hinv3 : MergeInv pq3 ind2 := by
      refine ⟨hH3, ?_, ?_, ?_⟩
      · intro f hf
        rcases hmem3 f hf with rfl | hf2
        · exact hnewOK
        · exact hOK f (hmem2 f hf2)
      · intro f hf j hj
        rcases hmem3 f hf with rfl | hf2
        · rw [hind2]; exact List.mem_append_right ind hj
        · rw [hind2]; exact List.mem_append_left _ (hSp f (hmem2 f hf2) j hj)
      · refine (hperm3.pairwise_iff (fun hab => noShare_symm hab)).mpr ?_
        refine List.pairwise_cons.mpr ⟨?_, (List.pairwise_cons.mp hpw).2⟩
        intro f hf j hj hjf
        exact hdisj j hj (hSp f (hmem2 f hf) j hjf)
    rcases ih hinv3 with ⟨ihF, ihC, ihH⟩
    refine ⟨ihF, ?_, ?_⟩
    swap
    · intro h hh
      rw [List.head?_cons] at hh
      cases hh
      exact ⟨e, hepq, rfl⟩
    refine List.chain'_cons'.mpr ⟨?_, ihC⟩
    intro h hh
    rcases ihH h hh with ⟨f, hf, hfe⟩
    rw [hfe]
    show e.hit.mstop ≤ f.hit.mstart
    rcases hmem3 f hf with rfl | hf2
    · have hval : ∀ m ∈ e.follow, m.mstart ≤ m.mstop := by
        intro m hm
        exact Nat.le_of_lt (hepos m (List.mem_cons_of_mem _ hm))
      exact chain_lb hechain hval hit hhitmem
    · have hns : noShare e.hit f.hit := (List.pairwise_cons.mp hpw).1 f hf2
      rcases hOK f (hmem2 f hf2) with ⟨hfk, -, hfpos⟩
      refine noShare_pos_le hns (hepos e.hit (List.mem_cons_self _ _))
        (hfpos f.hit (List.mem_cons_self _ _)) ?_
      have := hmin f (hmem2 f hf2)
      omega

theorem seedLoop_disjoint :
    ∀ (pats : List Pat) (s : Str) (pos endpos : Nat) (pq : List Entry)
      (ind : List Nat) (pq2 : List Entry) (ind2 : List Nat),
      seedLoop pats s pos endpos pq ind = .ok (pq2, ind2) →
      (∀ e ∈ pq, ∀ j ∈ spanIdx e.hit, j ∈ ind) →
      List.Pairwise (fun a b => noShare a.hit b.hit) pq →
      (∀ e ∈ pq2, ∀ j ∈ spanIdx e.hit, j ∈ ind2) ∧
      List.Pairwise (fun a b => noShare a.hit b.hit) pq2 := by
  intro pats
  induction pats with
  | nil =>
    intro s pos endpos pq ind pq2 ind2 h H1 H2
    cases h
    exact ⟨H1, H2⟩
  | cons p ps ih =>
    intro s pos endpos pq ind pq2 ind2 h H1 H2
    unfold seedLoop at h
    cases hpull : pullLoop ind (p.find s pos endpos) with
    | none =>
      rw [hpull] at h
      exact ih s pos endpos pq ind pq2 ind2 h H1 H2
    | some tr =>
      rcases tr with ⟨hit, rest, indN⟩
      rw [hpull] at h
      dsimp only at h
      cases hpush : heappushE pq ⟨hit.mstart, hit, rest, p⟩ with
      | error a => rw [hpush] at h; cases h
      | ok pqN =>
        rw [hpush] at h
        dsimp only at h
        rcases pullLoop_some hpull with ⟨hindN, hdisj, hsuffix⟩
        have hperm : List.Perm pqN (⟨hit.mstart, hit, rest, p⟩ :: pq) := by
          have h2 := heappush_perm pq ⟨hit.mstart, hit, rest, p⟩
          rw [← heappushE_ok_elim hpush] at h2
          exact h2
        have hmem : ∀ f ∈ pqN, f = ⟨hit.mstart, hit, rest, p⟩ ∨ f ∈ pq :=
          fun f hf => List.mem_cons.mp (hperm.mem_iff.mp hf)
        refine ih s pos endpos pqN indN pq2 ind2 h ?_ ?_
        · intro f hf j hj
          rcases hmem f hf with rfl | hf2
          · rw [hindN]; exact List.mem_append_right ind hj
          · rw [hindN]; exact List.mem_append_left _ (H1 f hf2 j hj)
        · refine (hperm.pairwise_iff (fun hab => noShare_symm hab)).mpr ?_
          refine List.pairwise_cons.mpr ⟨?_, H2⟩
          intro f hf j hj hjf
          exact hdisj j hj (H1 f hf j hjf)

theorem seedLoop_inv :
    ∀ (pats : List Pat) (s : Str) (pos endpos : Nat) (pq : List Entry)
      (ind : List Nat),
      (∀ p ∈ pats, PatOK p s pos endpos) → MergeInv pq ind →
      ∃ pq2 ind2, seedLoop pats s pos endpos pq ind = .ok (pq2, ind2) ∧
        MergeInv pq2 ind2 := by
  intro pats
  induction pats with
  | nil =>
    intro s pos endpos pq ind hP hinv
    exact ⟨pq, ind, rfl, hinv⟩
  | cons p ps ih =>
    intro s pos endpos pq ind hP hinv
    have hpOK : PatOK p s pos endpos := hP p (List.mem_cons_self _ _)
    have hPs : ∀ q ∈ ps, PatOK q s pos endpos :=
      fun q hq => hP q (List.mem_cons_of_mem _ hq)
    unfold seedLoop
    cases hpull : pullLoop ind (p.find s pos endpos) with
    | none => exact ih s pos endpos pq ind hPs hinv
    | some tr =>
      rcases tr with ⟨hit, rest, indN⟩
      dsimp only
      rcases pullLoop_some hpull with ⟨hindN, hdisj, hsuffix⟩
      have hhitmem : hit ∈ p.find s pos endpos :=
        hsuffix.subset (List.mem_cons_self _ _)
      rcases hinv with ⟨hH, hOK, hSp, hPW⟩
      have hpos : hit.mstart < hit.mstop := hpOK.2 hit hhitmem
      have hpushok : heappushE pq ⟨hit.mstart, hit, rest, p⟩ =
          .ok (heappush pq ⟨hit.mstart, hit, rest, p⟩) := by
        refine heappushE_ok_of ?_
        intro f hf he
        rcases hOK f hf with ⟨hfk, -, hfpos⟩
        have hm1 : f.key ∈ spanIdx f.hit := mem_spanIdx.mpr ⟨by omega,
          by rw [hfk]; exact hfpos f.hit (List.mem_cons_self _ _)⟩
        have hind : f.key ∈ ind := hSp f hf f.key hm1
        have hm2 : f.key ∈ spanIdx hit := by
          rw [he]
          exact mem_spanIdx.mpr ⟨Nat.le_refl _, hpos⟩
        exact hdisj f.key hm2 hind
      rw [hpushok]
      dsimp only
      have hperm : List.Perm (heappush pq ⟨hit.mstart, hit, rest, p⟩)
          (⟨hit.mstart, hit, rest, p⟩ :: pq) :=
        heappush_perm pq ⟨hit.mstart, hit, rest, p⟩
      have hmem : ∀ f ∈ heappush pq ⟨hit.mstart, hit, rest, p⟩,
          f = ⟨hit.mstart, hit, rest, p⟩ ∨ f ∈ pq :=
        fun f hf => List.mem_cons.mp (hperm.mem_iff.mp hf)
      refine ih s pos endpos _ indN hPs ⟨heappush_isHeap hH _, ?_, ?_, ?_⟩
      · intro f hf
        rcases hmem f hf with rfl | hf2
        · refine ⟨rfl, ?_, ?_⟩
          · exact chain_suffix hpOK.1 hsuffix
          · intro m hm
            exact hpOK.2 m (hsuffix.subset hm)
        · exact hOK f hf2
      · intro f hf j hj
        rcases hmem f hf with rfl | hf2
        · rw [hindN]; exact List.mem_append_right ind hj
        · rw [hindN]; exact List.mem_append_left _ (hSp f hf2 j hj)
      · refine (hperm.pairwise_iff (fun hab => noShare_symm hab)).mpr ?_
        refine List.pairwise_cons.mpr ⟨?_, hPW⟩
        intro f hf j hj hjf
        exact hdisj j hj (hSp f hf j hjf)

theorem mergeInv_nil : MergeInv [] [] := by
  refine ⟨?_, ?_, ?_, List.Pairwise.nil⟩
  · intro i hi0 hil
    cases hil
  · intro e he
    cases he
  · intro e he
    cases he

/-! ## Group resolution in the composite match model -/

/-- Modelled from the spec (section 4.6): hit `i` contributes a contiguous
block of group numbers equal to its own capture-group count; find the block
containing the requested index and delegate with the local index; fail with
the group-not-found error past the last block. -/
def blockSpec : List MatchWithOffset → Nat → Except Unit (Int × Int)
  | [], _ => .error ()
  | h :: rest, g =>
    if g ≤ h.ngroups then h.spanG g else blockSpec rest (g - h.ngroups)

/-- Total capture-group count over a composite match's hits. -/
def totalGroups (hits : List MatchWithOffset) : Nat :=
  (hits.map (fun h => h.ngroups)).sum

theorem spanG_err_iff (h : MatchWithOffset) (i : Nat) (hi : 0 < i) :
    h.spanG i = .error () ↔ h.ngroups < i := by
  unfold MatchWithOffset.spanG
  cases hg : h.match_.groups.get? (i - 1) with
  | none =>
    have hlen := List.get?_eq_none.mp hg
    unfold MatchWithOffset.ngroups
    constructor
    · intro _
      omega
    · intro _
      rfl
  | some sp =>
    have := List.get?_eq_some.mp hg
    rcases this with ⟨hlt, -⟩
    unfold MatchWithOffset.ngroups
    constructor
    · intro hh
      cases hh
    · intro hh
      omega

theorem spanGo_cons (h : MatchWithOffset) (rest : List MatchWithOffset) :
    ∀ (d g start : Nat), d = g - start → start < g → start ≤ h.ngroups →
      ComposeMatch.spanGo (h :: rest) g start =
        if g ≤ h.ngroups then h.spanG g
        else ComposeMatch.spanGo rest (g - h.ngroups) 0 := by
  intro d
  induction d with
  | zero => intro g start hd hlt; omega
  | succ n ihn =>
    intro g start hd hlt hsk
    rw [ComposeMatch.spanGo, if_pos hlt]
    cases hsp : h.spanG (start + 1) with
    | error a =>
      dsimp only
      have hgt : h.ngroups < start + 1 := (spanG_err_iff h (start + 1) (by omega)).mp (by rw [hsp])
      have hse : start = h.ngroups := by omega
      have hne : ¬ (g - start = 0) := by omega
      rw [if_neg hne]
      rw [if_neg (by omega : ¬ g ≤ h.ngroups), hse]
    | ok sp =>
      dsimp only
      have hok : ¬ (h.ngroups < start + 1) := by
        intro hh
        have := (spanG_err_iff h (start + 1) (by omega)).mpr hh
        rw [hsp] at this
        cases this
      by_cases hgend : start + 1 = g
      · rw [if_pos hgend, if_pos (by omega : g ≤ h.ngroups), ← hgend, hsp]
      · rw [if_neg hgend]
        exact ihn g (start + 1) (by omega) (by omega) (by omega)

theorem spanGo_blockSpec (hits : List MatchWithOffset) :
    ∀ (g : Nat), 0 < g →
      ComposeMatch.spanGo hits g 0 = blockSpec hits g := by
  induction hits with
  | nil =>
    intro g hg
    rw [ComposeMatch.spanGo]
    rfl
  | cons h rest ih =>
    intro g hg
    rw [spanGo_cons h rest (g - 0) g 0 rfl hg (Nat.zero_le _)]
    unfold blockSpec
    by_cases hk : g ≤ h.ngroups
    · rw [if_pos hk, if_pos hk]
    · rw [if_neg hk, if_neg hk]
      exact ih (g - h.ngroups) (by omega)

theorem blockSpec_err_iff (hits : List MatchWithOffset) :
    ∀ (g : Nat), 0 < g →
      (blockSpec hits g = .error () ↔ totalGroups hits < g) := by
  induction hits with
  | nil =>
    intro g hg
    unfold blockSpec totalGroups
    simpa using hg
  | cons h rest ih =>
    intro g hg
    unfold blockSpec
    have htot : totalGroups (h :: rest) = h.ngroups + totalGroups rest := by
      unfold totalGroups
      simp
    by_cases hk : g ≤ h.ngroups
    · rw [if_pos hk]
      rw [htot]
      constructor
      · intro hh
        exact absurd ((spanG_err_iff h g hg).mp hh) (by omega)
      · intro hh
        omega
    · rw [if_neg hk, htot]
      rw [ih (g - h.ngroups) (by omega)]
      omega

/-! ## The masker preserves length and untouched characters -/

theorem pySlice_length (s : Str) (a b : Nat) :
    (pySlice s a b).length = min b s.length - a := by
  unfold pySlice
  rw [List.length_drop, List.length_take]

theorem pySlice_getD (s : Str) (a b j : Nat) (d : Char)
    (h : a + j < min b s.length) :
    (pySlice s a b).getD j d = s.getD (a + j) d := by
  unfold pySlice
  have h1 : j < ((s.take b).drop a).length := by
    rw [List.length_drop, List.length_take]
    omega
  have h2 : a + j < s.length := by omega
  rw [List.getD_eq_getElem _ d h1, List.getD_eq_getElem _ d h2,
    List.getElem_drop, List.getElem_take]

theorem drop_getD (s : Str) (a j : Nat) (d : Char) (h : a + j < s.length) :
    (s.drop a).getD j d = s.getD (a + j) d := by
  have h1 : j < (s.drop a).length := by
    rw [List.length_drop]
    omega
  rw [List.getD_eq_getElem _ d h1, List.getD_eq_getElem _ d h,
    List.getElem_drop]

theorem take_getD (s : Str) (a j : Nat) (d : Char) (h : j < min a s.length) :
    (s.take a).getD j d = s.getD j d := by
  have h1 : j < (s.take a).length := by
    rw [List.length_take]
    omega
  rw [List.getD_eq_getElem _ d h1, List.getD_eq_getElem _ d (by omega),
    List.getElem_take]

theorem getD_append_ge {α : Type} (l1 l2 : List α) (j : Nat) (d : α)
    (h : l1.length ≤ j) : (l1 ++ l2).getD j d = l2.getD (j - l1.length) d := by
  simp [List.getD, List.getElem?_append_right h]

/-- Bounds contract for the stream handed to the masker (the `finditer`
capability guarantees matches inside `[pos, min(endpos, len))`, ordered and
non-overlapping). -/
def MaskStreamOK (stream : List MRes) (s : Str) (pos endpos : Nat) : Prop :=
  (∀ m ∈ stream, pos ≤ m.mstart ∧ m.mstart ≤ m.mstop ∧ m.mstop ≤ endpos ∧
    m.mstop ≤ s.length) ∧
  List.Chain' (fun a b => a.mstop ≤ b.mstart) stream

theorem maskPieces_length (s : Str) (endpos : Nat) (ph : Char) :
    ∀ (stream : List MRes) (lastEnd : Nat),
      (∀ m ∈ stream, lastEnd ≤ m.mstart ∧ m.mstart ≤ m.mstop ∧
        m.mstop ≤ endpos ∧ m.mstop ≤ s.length) →
      List.Chain' (fun a b => a.mstop ≤ b.mstart) stream →
      lastEnd ≤ endpos →
      (maskPieces s endpos ph stream lastEnd).length =
        s.length - min lastEnd s.length := by
  intro stream
  induction stream with
  | nil =>
    intro lastEnd hb hc hle
    unfold maskPieces
    rw [List.length_append, pySlice_length, List.length_drop]
    omega
  | cons m rest ih =>
    intro lastEnd hb hc hle
    rcases hb m (List.mem_cons_self _ _) with ⟨h1, h2, h3, h4⟩
    have hb2 : ∀ x ∈ rest, m.mstop ≤ x.mstart ∧ x.mstart ≤ x.mstop ∧
        x.mstop ≤ endpos ∧ x.mstop ≤ s.length := by
      intro x hx
      have hlb := chain_lb hc
        (fun y hy => (hb y (List.mem_cons_of_mem _ hy)).2.1) x hx
      exact ⟨hlb, (hb x (List.mem_cons_of_mem _ hx)).2⟩
    unfold maskPieces
    rw [List.length_append, List.length_append, pySlice_length,
      List.length_replicate, pySlice_length,
      ih m.mstop (fun x hx => hb2 x hx) (List.Chain'.tail hc) (by omega)]
    omega

theorem maskPieces_getD (s : Str) (endpos : Nat) (ph : Char) :
    ∀ (stream : List MRes) (lastEnd : Nat),
      (∀ m ∈ stream, lastEnd ≤ m.mstart ∧ m.mstart ≤ m.mstop ∧
        m.mstop ≤ endpos ∧ m.mstop ≤ s.length) →
      List.Chain' (fun a b => a.mstop ≤ b.mstart) stream →
      lastEnd ≤ endpos →
      ∀ (i : Nat) (d : Char), lastEnd ≤ i → i < s.length →
        (∀ m ∈ stream, ¬ (m.mstart ≤ i ∧ i < m.mstop)) →
        (maskPieces s endpos ph stream lastEnd).getD (i - lastEnd) d =
          s.getD i d := by
  intro stream
  induction stream with
  | nil =>
    intro lastEnd hb hc hle i d hli hil hexcl
    unfold maskPieces
    by_cases hie : i < endpos
    · rw [getD_append_lt _ _ _ _ (by rw [pySlice_length]; omega),
        pySlice_getD s lastEnd endpos (i - lastEnd) d (by omega)]
      congr 1
      omega
    · rw [getD_append_ge _ _ _ _ (by rw [pySlice_length]; omega),
        pySlice_length]
      rw [drop_getD s endpos _ d (by omega)]
      congr 1
      omega
  | cons m rest ih =>
    intro lastEnd hb hc hle i d hli hil hexcl
    rcases hb m (List.mem_cons_self _ _) with ⟨h1, h2, h3, h4⟩
    have hexm := hexcl m (List.mem_cons_self _ _)
    have hb2 : ∀ x ∈ rest, m.mstop ≤ x.mstart ∧ x.mstart ≤ x.mstop ∧
        x.mstop ≤ endpos ∧ x.mstop ≤ s.length := by
      intro x hx
      have hlb := chain_lb hc
        (fun y hy => (hb y (List.mem_cons_of_mem _ hy)).2.1) x hx
      exact ⟨hlb, (hb x (List.mem_cons_of_mem _ hx)).2⟩
    unfold maskPieces
    by_cases him : i < m.mstart
    · rw [List.append_assoc,
        getD_append_lt _ _ _ _ (by rw [pySlice_length]; omega),
        pySlice_getD s lastEnd m.mstart (i - lastEnd) d (by omega)]
      congr 1
      omega
    · have hge : m.mstop ≤ i := by omega
      have hl1 : (pySlice s lastEnd m.mstart).length = m.mstart - lastEnd := by
        rw [pySlice_length]
        omega
      have hl2 : (List.replicate (pySlice s m.mstart m.mstop).length ph).length =
          m.mstop - m.mstart := by
        rw [List.length_replicate, pySlice_length]
        omega
      rw [List.append_assoc,
        getD_append_ge _ _ _ _ (by rw [hl1]; omega),
        getD_append_ge _ _ _ _ (by rw [hl2, hl1]; omega)]
      have harith : i - lastEnd - (pySlice s lastEnd m.mstart).length -
          (List.replicate (pySlice s m.mstart m.mstop).length ph).length =
          i - m.mstop := by
        rw [hl2, hl1]
        omega
      rw [harith]
      exact ih m.mstop (fun x hx => hb2 x hx) (List.Chain'.tail hc) (by omega)
        i d hge hil (fun x hx => hexcl x (List.mem_cons_of_mem _ hx))

theorem maskString_length (p : Pat) (ph : Char) (s : Str) (pos endpos : Nat)
    (hpe : pos ≤ endpos)
    (hok : MaskStreamOK (p.find s pos endpos) s pos endpos) :
    (maskString p ph s pos endpos).length = s.length := by
  unfold maskString
  rw [List.length_append, List.length_take,
    maskPieces_length s endpos ph (p.find s pos endpos) pos hok.1 hok.2 hpe]
  omega

theorem maskString_getD (p : Pat) (ph : Char) (s : Str) (pos endpos : Nat)
    (hpe : pos ≤ endpos)
    (hok : MaskStreamOK (p.find s pos endpos) s pos endpos)
    (i : Nat) (d : Char) (hil : i < s.length)
    (hexcl : ∀ m ∈ p.find s pos endpos, ¬ (m.mstart ≤ i ∧ i < m.mstop)) :
    (maskString p ph s pos endpos).getD i d = s.getD i d := by
  unfold maskString
  by_cases hip : i < pos
  · rw [getD_append_lt _ _ _ _ (by rw [List.length_take]; omega)]
    exact take_getD s pos i d (by omega)
  · rw [getD_append_ge _ _ _ _ (by rw [List.length_take]; omega)]
    have harith : i - (s.take pos).length = i - pos := by
      rw [List.length_take]
      omega
    rw [harith]
    exact maskPieces_getD s endpos ph (p.find s pos endpos) pos hok.1 hok.2
      hpe i d (by omega) hil hexcl

/-- Masking with the `_MATCH_NONE` sentinel (the default `p_mask`) is the
identity on the string. -/
theorem maskString_matchNone (ph : Char) (s : Str) (pos endpos : Nat)
    (hpe : pos ≤ endpos) :
    maskString matchNonePat ph s pos endpos = s := by
  show s.take pos ++ (pySlice s pos endpos ++ s.drop endpos) = s
  unfold pySlice
  rw [← List.append_assoc]
  have h1 : s.take pos ++ (s.take endpos).drop pos = s.take endpos := by
    have h2 : (s.take endpos).take pos = s.take pos := by
      rw [List.take_take]
      congr 1
      omega
    rw [← h2, List.take_append_drop]
  rw [h1, List.take_append_drop]

/-! ## The conjunction combinator: an empty child stream empties the whole -/

theorem collectFirst_none (pats : List Pat) (s : Str) (pos endpos : Nat)
    (p : Pat) (hp : p ∈ pats) (hn : (p.find s pos endpos).head? = none) :
    collectFirst pats s pos endpos = none := by
  induction pats with
  | nil => cases hp
  | cons q qs ih =>
    rcases List.mem_cons.mp hp with rfl | hp2
    · unfold collectFirst
      rw [hn]
    · unfold collectFirst
      cases hq : (q.find s pos endpos).head? with
      | none => rfl
      | some hit =>
        rw [ih hp2]
        rfl

theorem findnextAll_none (pats : List Pat) (s : Str) (pos endpos : Nat)
    (p : Pat) (hp : p ∈ pats) (hn : Pat.search p s pos endpos = none) :
    findnextAll pats s pos endpos = [] := by
  have hne : pats.isEmpty = false := by
    cases pats
    · cases hp
    · rfl
  unfold findnextAll
  rw [if_neg (by simp [hne]), collectFirst_none pats s pos endpos p hp hn]

/-- `Base.finditer` of a rule with the default mask and deny sentinels is
`_findnext` on the unmodified string, every hit wrapped, nothing raised by
the mask/deny phase. -/
theorem finditer_default (r : Rule) (s : Str) (pos endpos : Nat)
    (hpe : pos ≤ endpos) (hm : r.pMask = none) (hd : r.pDeny = none) :
    r.finditer s pos endpos =
      ((r.findnext s pos endpos).1.map (wrapHit s), (r.findnext s pos endpos).2) := by
  have hmask : r.maskPat = matchNonePat := by
    unfold Rule.maskPat
    rw [hm]
  have hph : maskString r.maskPat r.placeholder s pos endpos = s := by
    rw [hmask]
    exact maskString_matchNone _ s pos endpos hpe
  have hdeny : r.denyPat = matchNonePat := by
    unfold Rule.denyPat
    rw [hd]
  unfold Rule.finditer
  rw [hph, hdeny]
  rfl

/-! ## The sequential combinator: what an emission consists of -/

/-- Any composite emitted by the `MatchSeq` loop is built from a subsequence
of the merger stream carrying exactly one hit per declared child, in the
declared order; a run that begins with partial progress may finish that first
composite from its carried accumulator (first disjunct). -/
theorem seqLoop_emits (pats : List Pat) :
    ∀ (stream : List (MRes × Pat)) (hits : List MatchWithOffset) (index : Nat),
      index < pats.length → ∀ m ∈ seqLoop pats stream hits index,
      (∃ sel : List (MRes × Pat), sel.Sublist stream ∧
        sel.map (fun q => q.2.id) = (pats.drop index).map Pat.id ∧
        m = MRes.comp (hits ++ sel.flatMap (fun q => q.1.hitsOf))) ∨
      (∃ sel : List (MRes × Pat), sel.Sublist stream ∧
        sel.map (fun q => q.2.id) = pats.map Pat.id ∧
        m = MRes.comp (sel.flatMap (fun q => q.1.hitsOf))) := by
  intro stream
  induction stream with
  | nil =>
    intro hits index hlt m hm
    cases hm
  | cons hp rest ih =>
    rcases hp with ⟨hit, p⟩
    intro hits index hlt m hm
    unfold seqLoop at hm
    dsimp only at hm
    by_cases hid : p.id = (pats.getD index default).id
    · rw [if_pos hid] at hm
      dsimp only at hm
      by_cases hfull : index + 1 = pats.length
      · rw [if_pos hfull] at hm
        rcases List.mem_cons.mp hm with rfl | hm2
        · left
          refine ⟨[(hit, p)], List.cons_sublist_cons.mpr (List.nil_sublist rest),
            ?_, by simp⟩
          have hdrop : pats.drop index = pats.getD index default :: [] := by
            rw [List.drop_eq_getElem_cons hlt, List.drop_eq_nil_of_le (by omega),
              List.getD_eq_getElem _ _ hlt]
          rw [hdrop]
          simp [hid]
        · have h0 : 0 < pats.length := by omega
          rcases ih [] 0 h0 m hm2 with hA | hB
          · right
            rcases hA with ⟨sel, hsub, hmap, hmeq⟩
            exact ⟨sel, hsub.cons _, by simpa using hmap, by simpa using hmeq⟩
          · right
            rcases hB with ⟨sel, hsub, hmap, hmeq⟩
            exact ⟨sel, hsub.cons _, hmap, hmeq⟩
      · rw [if_neg hfull] at hm
        rcases ih (hits ++ hit.hitsOf) (index + 1) (by omega) m hm with hA | hB
        · left
          rcases hA with ⟨sel, hsub, hmap, hmeq⟩
          refine ⟨(hit, p) :: sel, hsub.cons₂ _, ?_, ?_⟩
          · rw [List.map_cons, hmap, List.drop_eq_getElem_cons hlt,
              List.map_cons, hid, List.getD_eq_getElem _ _ hlt]
          · rw [hmeq]
            simp
        · right
          rcases hB with ⟨sel, hsub, hmap, hmeq⟩
          exact ⟨sel, hsub.cons _, hmap, hmeq⟩
    · rw [if_neg hid] at hm
      dsimp only at hm
      rw [if_neg (by omega)] at hm
      rcases ih hits index hlt m hm with hA | hB
      · left
        rcases hA with ⟨sel, hsub, hmap, hmeq⟩
        exact ⟨sel, hsub.cons _, hmap, hmeq⟩
      · right
        rcases hB with ⟨sel, hsub, hmap, hmeq⟩
        exact ⟨sel, hsub.cons _, hmap, hmeq⟩

/-- Modelled from the spec: the sequential combinator "resetting on any
out-of-order hit" — on a hit from a child other than the expected one, the
accumulated partial sequence is discarded and the hit is reconsidered as a
fresh first element. The code's `seqLoop` has no such reset branch. -/
def seqLoopReset (pats : List Pat) :
    List (MRes × Pat) → List MatchWithOffset → Nat → List MRes
  | [], _, _ => []
  | (hit, p) :: rest, hits, index =>
    if p.id = (pats.getD index default).id then
      if index + 1 = pats.length then
        MRes.comp (hits ++ hit.hitsOf) :: seqLoopReset pats rest [] 0
      else seqLoopReset pats rest (hits ++ hit.hitsOf) (index + 1)
    else
      if p.id = (pats.getD 0 default).id then
        if 1 = pats.length then MRes.comp hit.hitsOf :: seqLoopReset pats rest [] 0
        else seqLoopReset pats rest hit.hitsOf 1
      else seqLoopReset pats rest [] 0

/-! ## The split combinator in segment terms -/

/-- Modelled from the spec: split the scan region at the delimiter matches
into the segments `[pos, d0.start), [d0.end, d1.start), ..., [dn.end,
endpos)`, skip the empty ones, and run the content rule's stream inside each
segment independently, re-emitting its matches. -/
def splitSpec (p d : Pat) (s : Str) (pos endpos : Nat) : List MRes :=
  let dms := d.find s pos endpos
  (((pos :: dms.map (fun m => m.mstop)).zip
      (dms.map (fun m => m.mstart) ++ [endpos])).filter
    (fun se => se.1 < se.2)).flatMap (fun se => p.find s se.1 se.2)

theorem findnextSplit_spec (p d : Pat) (s : Str) (pos endpos : Nat) :
    (findnextSplit [p, d] s pos endpos).map Prod.fst =
      splitSpec p d s pos endpos := by
  unfold findnextSplit splitSpec
  rw [if_neg (by simp)]
  dsimp only
  rw [List.map_flatMap]
  congr 1
  funext se
  rw [List.map_map]
  exact List.map_id _

theorem findnextSplit_noDelim (p d : Pat) (s : Str) (pos endpos : Nat)
    (hd : d.find s pos endpos = []) :
    (findnextSplit [p, d] s pos endpos).map Prod.fst =
      if pos < endpos then p.find s pos endpos else [] := by
  rw [findnextSplit_spec]
  unfold splitSpec
  rw [hd]
  by_cases h : pos < endpos
  · rw [if_pos h]
    simp [List.filter, h]
  · rw [if_neg h]
    simp [List.filter, h]

/-! ## Concrete instances and inputs used by the claim witnesses -/

/-- Kernel-reducible check for `List.Chain'`. -/
def chain2 {α : Type} (R : α → α → Prop) [DecidableRel R] : List α → Bool
  | [] => true
  | [_] => true
  | a :: b :: rest => decide (R a b) && chain2 R (b :: rest)

theorem chain2_iff {α : Type} (R : α → α → Prop) [DecidableRel R] :
    ∀ l : List α, List.Chain' R l ↔ chain2 R l = true := by
  intro l
  induction l with
  | nil => exact iff_of_true List.chain'_nil rfl
  | cons a t ih =>
    cases t with
    | nil => exact iff_of_true (List.chain'_singleton a) rfl
    | cons b rest =>
      rw [List.chain'_cons, chain2, Bool.and_eq_true, decide_eq_true_eq]
      exact and_congr Iff.rfl ih

instance (priority := 2000) {α : Type} (R : α → α → Prop) [DecidableRel R]
    (l : List α) : Decidable (List.Chain' R l) :=
  decidable_of_iff _ (chain2_iff R l).symm

instance (p : Pat) (s : Str) (pos endpos : Nat) :
    Decidable (PatOK p s pos endpos) :=
  inferInstanceAs (Decidable
    (List.Chain' (fun a b : MRes => a.mstop ≤ b.mstart) (p.find s pos endpos) ∧
      ∀ m ∈ p.find s pos endpos, m.mstart < m.mstop))

instance (stream : List MRes) (s : Str) (pos endpos : Nat) :
    Decidable (MaskStreamOK stream s pos endpos) :=
  inferInstanceAs (Decidable
    ((∀ m ∈ stream, pos ≤ m.mstart ∧ m.mstart ≤ m.mstop ∧ m.mstop ≤ endpos ∧
        m.mstop ≤ s.length) ∧
      List.Chain' (fun a b : MRes => a.mstop ≤ b.mstart) stream))

/-- A child whose only match is the wide span `[1, 6)`. -/
def cexW : Pat := ⟨1, fun _ _ _ => [MRes.prim ⟨1, 6, []⟩]⟩

/-- A child whose only match is zero-width at position 3. -/
def cexZ : Pat := ⟨2, fun _ _ _ => [MRes.prim ⟨3, 3, []⟩]⟩

/-- A child with one zero-width match at position 0. -/
def cexZ0a : Pat := ⟨1, fun _ _ _ => [MRes.prim ⟨0, 0, []⟩]⟩

/-- A second, distinct child with one zero-width match at position 0. -/
def cexZ0b : Pat := ⟨2, fun _ _ _ => [MRes.prim ⟨0, 0, []⟩]⟩

/-- A child whose only match is `[0, 2)`. -/
def pOv1 : Pat := ⟨1, fun _ _ _ => [MRes.prim ⟨0, 2, []⟩]⟩

/-- A child whose only match is `[0, 3)`: same start offset as `pOv1`. -/
def pOv2 : Pat := ⟨2, fun _ _ _ => [MRes.prim ⟨0, 3, []⟩]⟩

def strAB : Str := ['a', 'b']

def strAAB : Str := ['a', 'a', 'b']

def strCAB : Str := ['c', 'a', 'b']

def str123 : Str := ['1', '2', '3', ',', '4', '5', '6', ',', '7', '8', '9']

/-- `SplitMatch.compile(digitsRule, ",")`. -/
def splitRule : Rule := ⟨.split, [digitsPat 1, charPat 2 ','], none, none⟩

/-- A rule scanning for the literal `b` masked by `(re.compile("a"), "b")`:
built with the `@` operator, so matching runs against the masked copy. -/
def maskRule : Rule :=
  (opMatmul (MatchAnyCompile [charPat 1 'b']) (charPat 3 'a') (some 'b')).1

/-- The first match `maskRule` yields on `"cab"` (found at offset 1, where the
mask put a placeholder `b` over the original `a`). -/
def cm4 : ComposeMatch := wrapHit strCAB (MRes.prim ⟨1, 2, []⟩)

/-- A composite match of two hits carrying 1 and 2 capture groups. -/
def cm7 : ComposeMatch :=
  ⟨[⟨⟨0, 2, [(1, 2)]⟩, (0, 0)⟩, ⟨⟨3, 5, [(3, 4), (4, 5)]⟩, (0, 0)⟩], []⟩

/-! ## The claims -/

/-- C4: every match yielded by `Base.finditer` carries the original (unmasked)
string, and its `group(0)` is the original text sliced at `span(0)` — the
masked placeholder text matching ran against is never returned. -/
theorem c4_group_roundtrip (r : Rule) (s : Str) (pos endpos : Nat) :
    ∀ m ∈ (r.finditer s pos endpos).1, m.string = s ∧
      ∀ a b, m.span0E = .ok (a, b) → m.group0E = .ok (pySlice s a b) := by
  intro m hm
  unfold Rule.finditer at hm
  dsimp only at hm
  split at hm
  · cases hm
  · rcases List.mem_map.mp hm with ⟨hit, hhit, rfl⟩
    cases hit with
    | prim mm =>
      refine ⟨rfl, ?_⟩
      intro a b hsp
      unfold ComposeMatch.group0E
      rw [hsp]
      rfl
    | comp hs =>
      refine ⟨rfl, ?_⟩
      intro a b hsp
      unfold ComposeMatch.group0E
      rw [hsp]
      rfl

unseal mergeLoop siftdownAuxE siftupAuxE in
/-- Witness for C4 on a genuinely masked scan: `maskRule` looks for `b` in
`"cab"` masked to `"cbb"`; its first match (at `[1, 2)`, where matching saw
the placeholder `b`) still reports `group(0) = "a"`, the original text at the
span. -/
theorem c4_masked_witness :
    (cm4 ∈ (maskRule.finditer strCAB 0 3).1) ∧ cm4.string = strCAB ∧
    cm4.span0E = .ok (1, 2) ∧ cm4.group0E = .ok (pySlice strCAB 1 2) ∧
    pySlice strCAB 1 2 = ['a'] ∧
    maskString maskRule.maskPat maskRule.placeholder strCAB 0 3 =
      ['c', 'b', 'b'] :=
  ⟨by decide, (c4_group_roundtrip maskRule strCAB 0 3 cm4 (by decide)).1,
    by decide,
    (c4_group_roundtrip maskRule strCAB 0 3 cm4 (by decide)).2 1 2 (by decide),
    by decide, by decide⟩

/-- C5: for a stream of in-bound, ordered, non-overlapping mask matches (the
`finditer` contract), `Masker.mask` preserves the string's length, and every
character outside the scan region or outside every matched span is
unchanged. -/
theorem c5_mask_shape (p : Pat) (ph : Char) (s : Str) (pos endpos : Nat)
    (hpe : pos ≤ endpos)
    (hok : MaskStreamOK (p.find s pos endpos) s pos endpos) :
    (maskString p ph s pos endpos).length = s.length ∧
    ∀ i d, i < s.length →
      (i < pos ∨ endpos ≤ i ∨
        ∀ m ∈ p.find s pos endpos, ¬(m.mstart ≤ i ∧ i < m.mstop)) →
      (maskString p ph s pos endpos).getD i d = s.getD i d := by
  refine ⟨maskString_length p ph s pos endpos hpe hok, ?_⟩
  intro i d hil hcond
  have hexcl : ∀ m ∈ p.find s pos endpos, ¬(m.mstart ≤ i ∧ i < m.mstop) := by
    rcases hcond with h | h | h
    · intro m hm hc
      rcases hok.1 m hm with ⟨h1, -, -, -⟩
      omega
    · intro m hm hc
      rcases hok.1 m hm with ⟨-, -, h3, -⟩
      omega
    · exact h
  exact maskString_getD p ph s pos endpos hpe hok i d hil hexcl

/-- Witness for C5 at the mask rule `a`, placeholder `#`, text `"cab"`. -/
theorem c5_mask_witness :
    (0 : Nat) ≤ 3 ∧ MaskStreamOK ((charPat 1 'a').find strCAB 0 3) strCAB 0 3 ∧
    (maskString (charPat 1 'a') '#' strCAB 0 3).length = strCAB.length ∧
    (maskString (charPat 1 'a') '#' strCAB 0 3).getD 0 'x' = strCAB.getD 0 'x' :=
  ⟨by decide, by decide,
    (c5_mask_shape (charPat 1 'a') '#' strCAB 0 3 (by decide) (by decide)).1,
    (c5_mask_shape (charPat 1 'a') '#' strCAB 0 3 (by decide) (by decide)).2
      0 'x' (by decide) (by decide)⟩

/-- C6: whenever one child of a `MatchALL` has no match in the scanned region
(`search` is `None`), the whole conjunction yields nothing: `findall` returns
the empty list (and raises nothing). -/
theorem c6_all_empty (pats : List Pat) (s : Str) (pos endpos : Nat)
    (hpe : pos ≤ endpos)
    (hex : ∃ p ∈ pats, Pat.search p s pos endpos = none) :
    Rule.findall (MatchALLCompile pats) s pos endpos = .ok [] := by
  rcases hex with ⟨p, hp, hn⟩
  have hfind : (MatchALLCompile pats).findnext s pos endpos = ([], false) := by
    show (findnextAll pats s pos endpos, false) = ([], false)
    rw [findnextAll_none pats s pos endpos p hp hn]
  have hfi : (MatchALLCompile pats).finditer s pos endpos = ([], false) := by
    rw [finditer_default _ _ _ _ hpe rfl rfl, hfind]
    rfl
  unfold Rule.findall
  rw [hfi]
  rfl

/-- Witness for C6: `MatchALL` of `a` and `z` on `"ab"` — `z` never matches,
so the conjunction's `findall` is empty. -/
theorem c6_all_witness :
    (0 : Nat) ≤ 2 ∧
    (∃ p ∈ [charPat 1 'a', charPat 2 'z'], Pat.search p strAB 0 2 = none) ∧
    Rule.findall (MatchALLCompile [charPat 1 'a', charPat 2 'z']) strAB 0 2 =
      .ok [] :=
  ⟨by decide, by decide,
    c6_all_empty [charPat 1 'a', charPat 2 'z'] strAB 0 2 (by decide) (by decide)⟩

/-- C7: for a positive group index, `ComposeMatch.span` resolves the index by
walking the hits in order, each hit contributing a contiguous block of group
numbers of its own capture-group count, delegating the translated local index;
it raises the group-not-found `IndexError` exactly when the index exceeds the
total capture-group count over all hits. -/
theorem c7_group_blocks (m : ComposeMatch) (g : Nat) (hg : 0 < g) :
    m.spanInt g = blockSpec m.hits g ∧
    (m.spanInt g = .error () ↔ totalGroups m.hits < g) := by
  have h1 : m.spanInt g = blockSpec m.hits g := spanGo_blockSpec m.hits g hg
  exact ⟨h1, by rw [h1]; exact blockSpec_err_iff m.hits g hg⟩

/-- Witness for C7 at a composite of a 1-group hit and a 2-group hit: group 2
resolves to the second hit's first group; group 4 is past the total of 3. -/
theorem c7_group_witness :
    (0 : Nat) < 2 ∧ cm7.spanInt 2 = blockSpec cm7.hits 2 ∧
    blockSpec cm7.hits 2 = .ok (3, 4) ∧
    (cm7.spanInt 4 = .error () ↔ totalGroups cm7.hits < 4) ∧
    totalGroups cm7.hits = 3 :=
  ⟨by decide, (c7_group_blocks cm7 2 (by decide)).1, by decide,
    (c7_group_blocks cm7 4 (by decide)).2, by decide⟩

/-- C9: every algebraic operator leaves its receiver unchanged — `&`, `|`,
`+`, `/` build a fresh composite around it, `^` and `@` deep-copy before
mutating — so the receiver's own `findall` is the same before and after, on
every subsequent call; the binary operators return new composites of the
expected mode. -/
theorem c9_operators_pure (r : Rule) (x : Pat) (i : Nat) (c : Char) (s : Str)
    (pos endpos : Nat) :
    (opAnd r x i).2 = r ∧ (opOr r x i).2 = r ∧ (opAdd r x i).2 = r ∧
    (opDiv r x i).2 = r ∧ (opXor r x).2 = r ∧ (opMatmul r x (some c)).2 = r ∧
    (opMatmul r x none).2 = r ∧
    (opAnd r x i).1.kind = .all ∧ (opOr r x i).1.kind = .any ∧
    (opAdd r x i).1.kind = .seq ∧
    (opXor r x).2.findall s pos endpos = r.findall s pos endpos ∧
    (opMatmul r x (some c)).2.findall s pos endpos = r.findall s pos endpos :=
  ⟨rfl, rfl, rfl, rfl, rfl, rfl, rfl, rfl, rfl, rfl, rfl, rfl⟩

/-- C10: the class-level factories accept zero patterns and build a rule whose
scan yields nothing on every input — `findall` is `[]`, `search` is `None`,
nothing raised — while the top-level `compile` raises `ValueError` on zero
patterns. -/
theorem c10_zero_patterns (s : Str) (pos endpos : Nat) (mode : Mode) :
    (MatchAnyCompile []).findall s pos endpos = .ok [] ∧
    (MatchAnyCompile []).search s pos endpos = none ∧
    (MatchALLCompile []).findall s pos endpos = .ok [] ∧
    (MatchALLCompile []).search s pos endpos = none ∧
    (MatchSeqCompile []).findall s pos endpos = .ok [] ∧
    (MatchSeqCompile []).search s pos endpos = none ∧
    topCompile [] mode = .error () := by
  have hany : ∀ (s2 : Str), findnextAny [] s2 pos endpos = ([], false) := by
    intro s2
    show mergeLoop [] [] = ([], false)
    rw [mergeLoop_unfold]
    rfl
  have hfn : ∀ (k : RuleKind) (s2 : Str),
      (Rule.mk k [] none none).findnext s2 pos endpos = ([], false) := by
    intro k s2
    cases k with
    | any =>
      show ((findnextAny [] s2 pos endpos).1.map Prod.fst,
        (findnextAny [] s2 pos endpos).2) = ([], false)
      rw [hany s2]
      rfl
    | all => rfl
    | seq => rfl
    | split => rfl
  have hfi : ∀ (k : RuleKind),
      (Rule.mk k [] none none).finditer s pos endpos = ([], false) := by
    intro k
    unfold Rule.finditer
    dsimp only
    rw [show (Rule.mk k [] none none).denyPat = matchNonePat from rfl]
    rw [if_neg (by simp [matchNonePat])]
    rw [hfn k]
    rfl
  refine ⟨?_, ?_, ?_, ?_, ?_, ?_, rfl⟩
  · unfold Rule.findall
    rw [show MatchAnyCompile ([] : List Pat) = Rule.mk .any [] none none from rfl,
      hfi .any]
    rfl
  · unfold Rule.search
    rw [show MatchAnyCompile ([] : List Pat) = Rule.mk .any [] none none from rfl,
      hfi .any]
    rfl
  · unfold Rule.findall
    rw [show MatchALLCompile ([] : List Pat) = Rule.mk .all [] none none from rfl,
      hfi .all]
    rfl
  · unfold Rule.search
    rw [show MatchALLCompile ([] : List Pat) = Rule.mk .all [] none none from rfl,
      hfi .all]
    rfl
  · unfold Rule.findall
    rw [show MatchSeqCompile ([] : List Pat) = Rule.mk .seq [] none none from rfl,
      hfi .seq]
    rfl
  · unfold Rule.search
    rw [show MatchSeqCompile ([] : List Pat) = Rule.mk .seq [] none none from rfl,
      hfi .seq]
    rfl

/-- C1 (corrected): the union merger's stream never yields two matches sharing
a character position, with no assumption on the children; the consecutive
ordering `m1.end(0) ≤ m2.start(0)` holds whenever every child stream is
ordered, non-overlapping and of positive width — with zero-width child
matches it can fail (see the counterexample). -/
theorem c1_any_stream (pats : List Pat) (s : Str) (pos endpos : Nat) :
    List.Pairwise noShare ((MatchAnyCompile pats).findnext s pos endpos).1 ∧
    ((∀ p ∈ pats, PatOK p s pos endpos) →
      List.Chain' (fun a b => a.mstop ≤ b.mstart)
        ((MatchAnyCompile pats).findnext s pos endpos).1) := by
  constructor
  · show List.Pairwise noShare ((findnextAny pats s pos endpos).1.map Prod.fst)
    rw [List.pairwise_map]
    unfold findnextAny
    cases hseed : seedLoop pats s pos endpos [] [] with
    | error e =>
      dsimp only
      exact List.Pairwise.nil
    | ok pr =>
      rcases pr with ⟨pq, ind⟩
      dsimp only
      have hd := seedLoop_disjoint pats s pos endpos [] [] pq ind hseed
        (fun e he => absurd he (List.not_mem_nil e)) List.Pairwise.nil
      exact (mergeLoop_disjoint pq ind hd.1 hd.2).1
  · intro hP
    rcases seedLoop_inv pats s pos endpos [] [] hP mergeInv_nil with
      ⟨pq, ind, hseed, hinv⟩
    show List.Chain' _ ((findnextAny pats s pos endpos).1.map Prod.fst)
    unfold findnextAny
    rw [hseed]
    dsimp only
    rw [List.chain'_map]
    exact (mergeLoop_chain pq ind hinv).2.1

/-- Witness for C1 on the literal children `a`, `b` over `"ab"`. -/
theorem c1_any_witness :
    (∀ p ∈ [charPat 1 'a', charPat 2 'b'], PatOK p strAB 0 2) ∧
    List.Chain' (fun a b => a.mstop ≤ b.mstart)
      ((MatchAnyCompile [charPat 1 'a', charPat 2 'b']).findnext strAB 0 2).1 :=
  ⟨by decide, (c1_any_stream [charPat 1 'a', charPat 2 'b'] strAB 0 2).2 (by decide)⟩

unseal mergeLoop siftdownAuxE siftupAuxE in
/-- Counterexample for C1's zero-width clause: a zero-width child match at 3
is yielded after a wide match `[1, 6)`, so consecutive matches violate
`m1.end(0) ≤ m2.start(0)` (the zero-width span claims no position, so the
occupied-offset check never defers it). -/
theorem c1_any_zero_width_cex :
    ((MatchAnyCompile [cexW, cexZ]).findnext [] 0 10).1 =
      [MRes.prim ⟨1, 6, []⟩, MRes.prim ⟨3, 3, []⟩] ∧
    ¬ List.Chain' (fun a b => a.mstop ≤ b.mstart)
      ((MatchAnyCompile [cexW, cexZ]).findnext [] 0 10).1 := by
  decide

/-- C2 (corrected): every composite the sequential combinator emits is built
from a subsequence of the union-merger stream carrying exactly one hit per
declared child, in the declared order.  The second half of the claim is
false: an out-of-order hit is ignored, not a reset of the accumulated
progress (see the counterexample against the spec-modelled reset loop). -/
theorem c2_seq_emission (pats : List Pat) (s : Str) (pos endpos : Nat)
    (m : MRes) (hm : m ∈ ((MatchSeqCompile pats).findnext s pos endpos).1) :
    ∃ sel : List (MRes × Pat),
      sel.Sublist (findnextAny pats s pos endpos).1 ∧
      sel.map (fun q => q.2.id) = pats.map Pat.id ∧
      m = MRes.comp (sel.flatMap (fun q => q.1.hitsOf)) := by
  have hdef : (MatchSeqCompile pats).findnext s pos endpos =
      findnextSeq pats s pos endpos := rfl
  rw [hdef] at hm
  unfold findnextSeq at hm
  by_cases he : pats.isEmpty
  · rw [if_pos he] at hm
    cases hm
  · rw [if_neg he] at hm
    dsimp only at hm
    have hlen : 0 < pats.length := by
      cases pats
      · exact absurd rfl he
      · simp
    rcases seqLoop_emits pats (findnextAny pats s pos endpos).1 [] 0 hlen m hm
      with hA | hB
    · rcases hA with ⟨sel, hsub, hmap, hmeq⟩
      exact ⟨sel, hsub, by simpa using hmap, by simpa using hmeq⟩
    · exact hB

unseal mergeLoop siftdownAuxE siftupAuxE in
/-- Witness for C2 on children `a`, `b` over `"aab"`: the emitted composite
draws `a@0` and `b@2` from the merger stream (ignoring the out-of-order
`a@1`), one hit per child in declared order. -/
theorem c2_seq_witness :
    (MRes.comp [⟨⟨0, 1, []⟩, (0, 0)⟩, ⟨⟨2, 3, []⟩, (0, 0)⟩] ∈
      ((MatchSeqCompile [charPat 1 'a', charPat 2 'b']).findnext strAAB 0 3).1) ∧
    ∃ sel : List (MRes × Pat),
      sel.Sublist (findnextAny [charPat 1 'a', charPat 2 'b'] strAAB 0 3).1 ∧
      sel.map (fun q => q.2.id) = [charPat 1 'a', charPat 2 'b'].map Pat.id ∧
      MRes.comp [⟨⟨0, 1, []⟩, (0, 0)⟩, ⟨⟨2, 3, []⟩, (0, 0)⟩] =
        MRes.comp (sel.flatMap (fun q => q.1.hitsOf)) :=
  ⟨by decide,
    c2_seq_emission [charPat 1 'a', charPat 2 'b'] strAAB 0 3 _ (by decide)⟩

unseal mergeLoop siftdownAuxE siftupAuxE in
/-- Counterexample for C2's reset clause: on `"aab"` with children `a`, `b`
the code absorbs the out-of-order `a@1` and emits the composite spanning
`[0, 3)` (`findall` gives `"aab"`), while the spec-modelled resetting loop
would discard the progress and emit the composite of `a@1`, `b@2`. -/
theorem c2_seq_no_reset_cex :
    Rule.findall (MatchSeqCompile [charPat 1 'a', charPat 2 'b']) strAAB 0 3 =
      .ok [['a', 'a', 'b']] ∧
    seqLoop [charPat 1 'a', charPat 2 'b']
        (findnextAny [charPat 1 'a', charPat 2 'b'] strAAB 0 3).1 [] 0 =
      [MRes.comp [⟨⟨0, 1, []⟩, (0, 0)⟩, ⟨⟨2, 3, []⟩, (0, 0)⟩]] ∧
    seqLoopReset [charPat 1 'a', charPat 2 'b']
        (findnextAny [charPat 1 'a', charPat 2 'b'] strAAB 0 3).1 [] 0 =
      [MRes.comp [⟨⟨1, 2, []⟩, (0, 0)⟩, ⟨⟨2, 3, []⟩, (0, 0)⟩]] := by
  refine ⟨by decide, by decide, by decide⟩

/-- C3 (corrected): the union merger never raises when every child stream is
ordered, non-overlapping and of positive width — equal-start candidates are
then impossible in the queue, because the later one intersects the claimed
span and is skipped; determinism is definitional here (the stream is a
function of the rule and inputs).  With zero-width candidates sharing a
start the scan raises `TypeError` instead (see the counterexample), so the
claim's unconditional totality is false. -/
theorem c3_any_total (pats : List Pat) (s : Str) (pos endpos : Nat)
    (hP : ∀ p ∈ pats, PatOK p s pos endpos) :
    ((MatchAnyCompile pats).findnext s pos endpos).2 = false := by
  rcases seedLoop_inv pats s pos endpos [] [] hP mergeInv_nil with
    ⟨pq, ind, hseed, hinv⟩
  show (findnextAny pats s pos endpos).2 = false
  unfold findnextAny
  rw [hseed]
  dsimp only
  exact (mergeLoop_chain pq ind hinv).1

unseal mergeLoop siftdownAuxE siftupAuxE in
/-- Witness for C3: two children with candidates sharing start offset 0
(spans `[0, 2)` and `[0, 3)`) — the scan stays total and yields the first. -/
theorem c3_any_witness :
    (∀ p ∈ [pOv1, pOv2], PatOK p [] 0 5) ∧
    ((MatchAnyCompile [pOv1, pOv2]).findnext [] 0 5).2 = false ∧
    ((MatchAnyCompile [pOv1, pOv2]).findnext [] 0 5).1 =
      [MRes.prim ⟨0, 2, []⟩] :=
  ⟨by decide, c3_any_total [pOv1, pOv2] [] 0 5 (by decide), by decide⟩

unseal mergeLoop siftdownAuxE siftupAuxE in
/-- Counterexample for C3's totality: two children each yielding a zero-width
match at 0 put two equal keys in the heap; the tuple comparison falls through
to the unorderable `re.Match` objects and raises `TypeError`, surfacing from
`finditer`/`findall`. -/
theorem c3_any_equal_start_cex :
    ((MatchAnyCompile [cexZ0a, cexZ0b]).findnext [] 0 5).2 = true ∧
    Rule.findall (MatchAnyCompile [cexZ0a, cexZ0b]) [] 0 5 = .error () := by
  decide

unseal digitRuns in
/-- C8: the split combinator's stream is exactly the content rule's stream
re-run inside each non-empty segment cut by the delimiter matches (offsets
absolute in the original text, zero-width segments skipped); with no
delimiter match the whole region is the one segment; and on
`"123,456,789"` with a digit-run content rule and the `","` delimiter,
`findall` returns `["123", "456", "789"]`. -/
theorem c8_split_segments :
    (∀ (p d : Pat) (s : Str) (pos endpos : Nat),
      (findnextSplit [p, d] s pos endpos).map Prod.fst =
        splitSpec p d s pos endpos) ∧
    (∀ (p d : Pat) (s : Str) (pos endpos : Nat), d.find s pos endpos = [] →
      (findnextSplit [p, d] s pos endpos).map Prod.fst =
        if pos < endpos then p.find s pos endpos else []) ∧
    SplitMatchCompile [digitsPat 1, charPat 2 ','] = .ok splitRule ∧
    Rule.findall splitRule str123 0 11 =
      .ok [['1', '2', '3'], ['4', '5', '6'], ['7', '8', '9']] := by
  refine ⟨findnextSplit_spec, findnextSplit_noDelim, rfl, ?_⟩
  decide

unseal digitRuns in
/-- Witness for C8's no-delimiter clause: with the delimiter `;` absent from
`"123,456,789"` the whole region is one segment and the content rule's
stream is re-emitted unchanged. -/
theorem c8_split_witness :
    ((charPat 9 ';').find str123 0 11 = []) ∧
    (findnextSplit [digitsPat 1, charPat 9 ';'] str123 0 11).map Prod.fst =
      (if 0 < 11 then (digitsPat 1).find str123 0 11 else []) :=
  ⟨by decide,
    c8_split_segments.2.1 (digitsPat 1) (charPat 9 ';') str123 0 11 (by decide)⟩

end Myre
